import Mathlib

/-!
# Verification of the dias-rag content segmentation pipeline

Shallow embedding of the chunking and title-resolution code of the
repository (`src/utils.py`: `chunk_content`, `_split_sentences`,
`_split_at_clauses`, `_split_at_words`; `src/indexer.py`: `_extract_title`),
together with proofs settling the specification claims.

Texts are modelled as `List Char` (Python `str` is a sequence of code
points).  The size limit is an `Int` (Python integers are unbounded and the
claims quantify over non-positive limits as well).  The single fallible
operation in the source is `range(0, len(word), max_size)` inside
`_split_at_words`, which raises `ValueError` when `max_size == 0`; the
embedding therefore returns `Except Unit`.
-/

set_option maxHeartbeats 1000000

/-- Python whitespace (`\s`, `str.strip()`, `str.split()`), restricted to the
ASCII range: space, tab, newline, carriage return, vertical tab, form feed. -/
def pySpace (c : Char) : Bool :=
  c == ' ' || c == '\t' || c == '\n' || c == '\r' || c == '\x0b' || c == '\x0c'

/-- Python `str.strip()`: remove leading and trailing whitespace. -/
def pyStrip (xs : List Char) : List Char :=
  ((xs.dropWhile pySpace).reverse.dropWhile pySpace).reverse

/-- The non-whitespace characters of a text, in order. -/
def filterNW (xs : List Char) : List Char := xs.filter (fun c => !pySpace c)

/-- Python `' '.join(pieces)`. -/
def joinSpace (ps : List (List Char)) : List Char := (List.intersperse [' '] ps).flatten

/-- Python `str.split()` with no argument: split on whitespace runs,
dropping empty pieces. -/
def pySplitWs : List Char → List (List Char)
  | [] => []
  | c :: cs =>
    if pySpace c then pySplitWs cs
    else (c :: cs.takeWhile (fun x => !pySpace x)) ::
      pySplitWs (cs.dropWhile (fun x => !pySpace x))
termination_by xs => xs.length
decreasing_by
  · simp only [List.length_cons]; omega
  · simp only [List.length_cons]
    have := (List.dropWhile_sublist (l := cs) (fun x => !pySpace x)).length_le
    omega

/-- Prepend a character to the first piece of a split-in-progress. -/
def consHead (c : Char) : List (List Char) → List (List Char)
  | [] => [[c]]
  | p :: ps => (c :: p) :: ps

/-- Python `str.split(d)` for a single-character separator `d`: empty pieces
are kept, and `"".split(d) == ['']`. -/
def pySplitOn (d : Char) : List Char → List (List Char)
  | [] => [[]]
  | c :: cs => if c == d then [] :: pySplitOn d cs else consHead c (pySplitOn d cs)

/-- Index of the last `'\n'` inside the maximal whitespace prefix of the
text, if any.  Used to model the greedy match of `re.split(r'\n\s*\n', ...)`:
a match starting at a newline extends to the last newline of the whitespace
run that follows it. -/
def lastNlInRun : List Char → Option Nat
  | [] => none
  | c :: cs =>
    if pySpace c then
      match lastNlInRun cs with
      | some j => some (j + 1)
      | none => if c == '\n' then some 0 else none
    else none

/-- Model of `re.split(r'\n\s*\n', content)` (step 1 of `chunk_content`): each match
is a newline, followed greedily by whitespace ending at a further newline. -/
def paraSplit : List Char → List (List Char)
  | [] => [[]]
  | c :: cs =>
    if c == '\n' then
      match lastNlInRun cs with
      | some j => [] :: paraSplit (cs.drop (j + 1))
      | none => consHead c (paraSplit cs)
    else consHead c (paraSplit cs)
termination_by xs => xs.length
decreasing_by
  · simp only [List.length_cons]
    have := List.length_drop (j + 1) cs
    omega
  · simp only [List.length_cons]; omega
  · simp only [List.length_cons]; omega

/-- Sentence-terminal punctuation `[.!?]`. -/
def pyTerm (c : Char) : Bool := c == '.' || c == '!' || c == '?'

/-- Uppercase ASCII letter, `[A-Z]`. -/
def pyUpper (c : Char) : Bool := 'A' ≤ c && c ≤ 'Z'

/-- Whether the character before the current scan position is a terminator
(`none` at the start of the text, where the lookbehind fails). -/
def isTermO : Option Char → Bool
  | some c => pyTerm c
  | none => false

/-- Scanner for `re.split(r'(?<=[.!?])\s+(?=[A-Z])|(?<=[.!?])$', text)`.
`prev` is the character before the scan position.  The first alternative
matches a maximal whitespace run preceded by a terminator and followed by an
uppercase letter (the greedy `\s+` backtracks only down to the run whose
successor satisfies the lookahead, which for whitespace-vs-uppercase is
exactly the maximal run).  The second, zero-width alternative fires after a
terminator at the end of the string or before a single trailing newline
(`$` without `re.MULTILINE`); it splits off an empty or `"\n"` piece. -/
def sentSplitCore : Option Char → List Char → List (List Char)
  | prev, [] => if isTermO prev then [[], []] else [[]]
  | prev, c :: cs =>
    if isTermO prev && pySpace c then
      if (cs.dropWhile pySpace).isEmpty then
        if c == '\n' && cs.isEmpty then [[], ['\n']]
        else consHead c (sentSplitCore (some c) cs)
      else
        if pyUpper ((cs.dropWhile pySpace).headD ' ') then
          [] :: sentSplitCore (some ((cs.takeWhile pySpace).getLastD c)) (cs.dropWhile pySpace)
        else consHead c (sentSplitCore (some c) cs)
    else consHead c (sentSplitCore (some c) cs)
termination_by _ xs => xs.length
decreasing_by
  · simp only [List.length_cons]; omega
  · simp only [List.length_cons]
    have h2 := (List.dropWhile_sublist (l := cs) pySpace).length_le
    omega
  · simp only [List.length_cons]; omega
  · simp only [List.length_cons]; omega

/-- Model of `_split_sentences` (src/utils.py:113): regex split, then strip each
piece and drop the empty ones. -/
def _split_sentences (text : List Char) : List (List Char) :=
  ((sentSplitCore none text).map pyStrip).filter (fun s => !s.isEmpty)

/-- The delimiter class used by `_split_at_clauses`: the first of `;`, `:`,
`,` occurring anywhere in the text. -/
def chooseDelim (text : List Char) : Option Char :=
  if text.contains ';' then some ';'
  else if text.contains ':' then some ':'
  else if text.contains ',' then some ','
  else none

/-- Fixed-size slices `word[i:i+k]` for `i in range(0, len(word), k)`,
`k > 0`.  (The `k = 0` case is unreachable: `hardCut` only calls this with a
positive size.) -/
def slicesOf : List Char → Nat → List (List Char)
  | [], _ => []
  | _ :: _, 0 => []
  | c :: cs, k + 1 => (c :: cs.take k) :: slicesOf (cs.drop k) (k + 1)
termination_by w _ => w.length
decreasing_by
  simp only [List.length_cons]
  have := List.length_drop k cs
  omega

/-- The hard cut `for i in range(0, len(word), max_size)` of an over-long
word (src/utils.py:222).  Python's `range` raises `ValueError` on step 0 and
yields nothing for `0` up-to a positive bound with negative step. -/
def hardCut (w : List Char) (m : Int) : Except Unit (List (List Char)) :=
  if m = 0 then .error ()
  else if m < 0 then .ok []
  else .ok (slicesOf w m.toNat)

/-- The accumulation loop of `_split_at_words` (src/utils.py:209-235) over
the word list, carrying `current` and `current_length`. -/
def wordLoop (m : Int) : List (List Char) → List (List Char) → Int → Except Unit (List (List Char))
  | [], current, _ => .ok (if current.isEmpty then [] else [joinSpace current])
  | w :: rest, current, clen =>
    if (w.length : Int) > m then
      match hardCut w m with
      | .error e => .error e
      | .ok cut =>
        match wordLoop m rest [] 0 with
        | .error e => .error e
        | .ok more =>
          .ok ((if current.isEmpty then [] else [joinSpace current]) ++ cut ++ more)
    else if clen + ((w.length : Int) + (if current.isEmpty then 0 else 1)) > m then
      match wordLoop m rest [w] (w.length : Int) with
      | .error e => .error e
      | .ok more => .ok ((if current.isEmpty then [] else [joinSpace current]) ++ more)
    else wordLoop m rest (current ++ [w])
      (clen + ((w.length : Int) + (if current.isEmpty then 0 else 1)))

/-- Model of `_split_at_words` (src/utils.py:193). -/
def _split_at_words (text : List Char) (m : Int) : Except Unit (List (List Char)) :=
  wordLoop m (pySplitWs text) [] 0

/-- The per-delimiter loop of `_split_at_clauses` (src/utils.py:151-185).
Python iterates with `enumerate` and tests `i < len(parts) - 1`, which holds
exactly when parts remain after the current one, modelled by `rest` being
non-empty. -/
def clauseLoop (m : Int) (d : Char) : List (List Char) → List (List Char) → Int → Except Unit (List (List Char))
  | [], current, _ => .ok (if current.isEmpty then [] else [joinSpace current])
  | p :: rest, current, clen =>
    if (pyStrip p).isEmpty then clauseLoop m d rest current clen
    else if (((if rest.isEmpty then pyStrip p else pyStrip p ++ [d]).length : Int)) > m then
      match _split_at_words (if rest.isEmpty then pyStrip p else pyStrip p ++ [d]) m with
      | .error e => .error e
      | .ok wc =>
        match clauseLoop m d rest [] 0 with
        | .error e => .error e
        | .ok more =>
          .ok ((if current.isEmpty then [] else [joinSpace current]) ++ wc ++ more)
    else if clen + (((if rest.isEmpty then pyStrip p else pyStrip p ++ [d]).length : Int) +
        (if current.isEmpty then 0 else 1)) > m then
      match clauseLoop m d rest [if rest.isEmpty then pyStrip p else pyStrip p ++ [d]]
          (((if rest.isEmpty then pyStrip p else pyStrip p ++ [d]).length : Int)) with
      | .error e => .error e
      | .ok more => .ok ((if current.isEmpty then [] else [joinSpace current]) ++ more)
    else clauseLoop m d rest
      (current ++ [if rest.isEmpty then pyStrip p else pyStrip p ++ [d]])
      (clen + (((if rest.isEmpty then pyStrip p else pyStrip p ++ [d]).length : Int) +
        (if current.isEmpty then 0 else 1)))

/-- Model of `_split_at_clauses` (src/utils.py:130): try `;`, then `:`, then `,`;
split at the first delimiter present; with none present, fall back to
word splitting. -/
def _split_at_clauses (text : List Char) (m : Int) : Except Unit (List (List Char)) :=
  match chooseDelim text with
  | some d => clauseLoop m d (pySplitOn d text) [] 0
  | none => _split_at_words text m

/-- The sentence accumulation loop of `chunk_content` (src/utils.py:70-108). -/
def sentLoop (m : Int) : List (List Char) → List (List Char) → Int → Except Unit (List (List Char))
  | [], current, _ => .ok (if current.isEmpty then [] else [joinSpace current])
  | s0 :: rest, current, clen =>
    if (pyStrip s0).isEmpty then sentLoop m rest current clen
    else if ((pyStrip s0).length : Int) > m then
      match _split_at_clauses (pyStrip s0) m with
      | .error e => .error e
      | .ok sub =>
        match sentLoop m rest [] 0 with
        | .error e => .error e
        | .ok more =>
          .ok ((if current.isEmpty then [] else [joinSpace current]) ++ sub ++ more)
    else if clen + (((pyStrip s0).length : Int) + (if current.isEmpty then 0 else 1)) > m then
      match sentLoop m rest [pyStrip s0] ((pyStrip s0).length : Int) with
      | .error e => .error e
      | .ok more => .ok ((if current.isEmpty then [] else [joinSpace current]) ++ more)
    else sentLoop m rest (current ++ [pyStrip s0])
      (clen + (((pyStrip s0).length : Int) + (if current.isEmpty then 0 else 1)))

/-- The per-paragraph body of `chunk_content` (src/utils.py:57-108): strip,
skip if empty, emit whole if within the limit, otherwise split into
sentences and accumulate. -/
def chunkParagraph (m : Int) (para : List Char) : Except Unit (List (List Char)) :=
  if (pyStrip para).isEmpty then .ok []
  else if ((pyStrip para).length : Int) ≤ m then .ok [pyStrip para]
  else sentLoop m (_split_sentences (pyStrip para)) [] 0

/-- The paragraph loop of `chunk_content`, concatenating each paragraph's
chunks in order. -/
def paraLoop (m : Int) : List (List Char) → Except Unit (List (List Char))
  | [] => .ok []
  | para :: rest =>
    match chunkParagraph m para with
    | .error e => .error e
    | .ok cs =>
      match paraLoop m rest with
      | .error e => .error e
      | .ok more => .ok (cs ++ more)

/-- Model of `chunk_content` (src/utils.py:30). -/
def chunk_content (content : List Char) (m : Int) : Except Unit (List (List Char)) :=
  if (pyStrip content).isEmpty then .ok []
  else paraLoop m (paraSplit content)

/-- Length of the maximal whitespace prefix of a text (greedy `\s+`/`\s*`). -/
def wsRunLen (xs : List Char) : Nat := (xs.takeWhile pySpace).length

/-- The characters up to (not including) the first `'\n'`: the greedy match
of `(.+)$`, since `.` excludes newlines and `$` with `re.MULTILINE` matches
before every newline and at the end. -/
def takeLine (xs : List Char) : List Char := xs.takeWhile (fun c => c != '\n')

/-- Backtracking step for `\s+(.+)$` when the whitespace run reaches the end
of the string: the largest `k` with `1 ≤ k ≤ n` such that the character at
index `k` is not a newline (so `(.+)` can start there). -/
def findK (rest : List Char) : Nat → Option Nat
  | 0 => none
  | k + 1 => if rest.getD (k + 1) '\n' != '\n' then some (k + 1) else findK rest k

/-- Match of `\s+(.+)$` (with `re.MULTILINE`) against `rest`, the text after
a `#` at a line start; returns the captured group.  The greedy `\s+` takes
the whole whitespace run when a (necessarily non-newline) character follows
it; when the run reaches the end of the string it backtracks to the last
whitespace character that is not itself a newline. -/
def matchAfterHash (rest : List Char) : Option (List Char) :=
  let W := wsRunLen rest
  if W = 0 then none
  else if W < rest.length then some (takeLine (rest.drop W))
  else
    match findK rest (W - 1) with
    | some k => some (takeLine (rest.drop k))
    | none => none

/-- Model of `re.search(r"^#\s+(.+)$", content, re.MULTILINE)` (src/indexer.py:122):
scan positions left to right; at each line start holding `#`, attempt the
rest of the pattern; return the first successful capture.  `atStart` records
whether the current position is a line start. -/
def h1Search : Bool → List Char → Option (List Char)
  | _, [] => none
  | atStart, c :: cs =>
    if atStart && c == '#' then
      match matchAfterHash cs with
      | some g => some g
      | none => h1Search (c == '\n') cs
    else h1Search (c == '\n') cs

/-- Values a parsed frontmatter mapping can hold (the scalar shapes the
spec's metadata blocks carry). -/
inductive PyValue where
  | VStr : List Char → PyValue
  | VInt : Int → PyValue
  | VBool : Bool → PyValue
  | VNone : PyValue
deriving DecidableEq

/-- Python `str(value)` on those shapes. -/
def pyStr : PyValue → List Char
  | .VStr s => s
  | .VInt n => (toString n).data
  | .VBool true => "True".data
  | .VBool false => "False".data
  | .VNone => "None".data

/-- Dictionary lookup, modelled as first-match association lookup. -/
def lookupKey (fm : List (List Char × PyValue)) (k : List Char) : Option PyValue :=
  match fm.find? (fun kv => kv.1 == k) with
  | some kv => some kv.2
  | none => none

/-- Index of the last occurrence of `c`, if any. -/
def lastIdxOf (c : Char) : List Char → Option Nat
  | [] => none
  | x :: xs =>
    match lastIdxOf c xs with
    | some j => some (j + 1)
    | none => if x == c then some 0 else none

/-- Model of `PurePath.name`: the component after the last `/` (the indexer passes
bare filenames, so this is normally the identity). -/
def pyName (p : List Char) : List Char :=
  match lastIdxOf '/' p with
  | some j => p.drop (j + 1)
  | none => p

/-- Model of `Path(filename).stem`: name without suffix; the suffix is `name[i:]` for
the last dot index `i` only when `0 < i < len(name) - 1`. -/
def pyStem (filename : List Char) : List Char :=
  let name := pyName filename
  match lastIdxOf '.' name with
  | some i => if 0 < i ∧ i < name.length - 1 then name.take i else name
  | none => name

/-- The dictionary key `"title"`. -/
def titleKey : List Char := "title".data

/-- Model of `_extract_title` (src/indexer.py:105): frontmatter `title` first, then
the first `^#\s+(.+)$` match, then the filename stem. -/
def _extract_title (fm : List (List Char × PyValue)) (content : List Char)
    (filename : List Char) : List Char :=
  match lookupKey fm titleKey with
  | some v => pyStr v
  | none =>
    match h1Search true content with
    | some g => pyStrip g
    | none => pyStem filename

/-! ## Derived and specification-side definitions -/

/-- A text is "solid" when it is non-empty and neither starts nor ends with
whitespace (equivalently: it is a fixed point of `pyStrip`, non-blank). -/
def headNW : List Char → Bool
  | [] => false
  | c :: _ => !pySpace c

/-- Non-empty with non-whitespace first and last character. -/
def solid (p : List Char) : Bool := headNW p && headNW p.reverse

/-- Non-empty and free of whitespace characters, as the pieces returned by
`str.split()` are. -/
def wordlike (w : List Char) : Prop := w ≠ [] ∧ ∀ c ∈ w, pySpace c = false

/-- Every chunk of `out` is solid and fits in the limit. -/
def goodOut (m : Int) (out : List (List Char)) : Prop :=
  ∀ c ∈ out, solid c = true ∧ (c.length : Int) ≤ m

/-- The common shape of the three accumulation loops of the source: pack
pieces into a running buffer joined by single spaces, flushing when the next
piece would overflow `m`, and delegating a piece that alone exceeds `m` to
the handler `H`. -/
def packCore (m : Int) (H : List Char → Except Unit (List (List Char))) :
    List (List Char) → List (List Char) → Int → Except Unit (List (List Char))
  | [], cur, _ => .ok (if cur.isEmpty then [] else [joinSpace cur])
  | p :: rest, cur, clen =>
    if (p.length : Int) > m then
      match H p with
      | .error e => .error e
      | .ok sub =>
        match packCore m H rest [] 0 with
        | .error e => .error e
        | .ok more => .ok ((if cur.isEmpty then [] else [joinSpace cur]) ++ sub ++ more)
    else if clen + ((p.length : Int) + (if cur.isEmpty then 0 else 1)) > m then
      match packCore m H rest [p] (p.length : Int) with
      | .error e => .error e
      | .ok more => .ok ((if cur.isEmpty then [] else [joinSpace cur]) ++ more)
    else packCore m H rest (cur ++ [p]) (clen + ((p.length : Int) + (if cur.isEmpty then 0 else 1)))

/-- The pieces `_split_at_clauses` actually feeds its packing loop, derived
from the split parts: stripped, empty parts dropped, and the delimiter
re-appended to every part except the last. -/
def effList (d : Char) : List (List Char) → List (List Char)
  | [] => []
  | p :: rest =>
    (if (pyStrip p).isEmpty then []
     else [if rest.isEmpty then pyStrip p else pyStrip p ++ [d]]) ++ effList d rest

/-- The same piece list in the phrasing of the specification: strip the
parts, drop empty ones, re-append the delimiter to every kept part that is
not the final split part. -/
def effListSpec (d : Char) (parts : List (List Char)) : List (List Char) :=
  (((parts.dropLast.map pyStrip).filter (fun q => !q.isEmpty)).map (fun q => q ++ [d])) ++
    (match parts.getLast? with
     | some p => if (pyStrip p).isEmpty then [] else [pyStrip p]
     | none => [])

/-- The pieces the sentence loop of `chunk_content` actually packs:
sentences stripped, empty ones skipped. -/
def effSent : List (List Char) → List (List Char)
  | [] => []
  | s :: rest => (if (pyStrip s).isEmpty then [] else [pyStrip s]) ++ effSent rest

/-- The non-whitespace characters of a delimiter-separated part list, with
one delimiter between consecutive parts: the non-whitespace content of the
original text the parts were split from. -/
def delimFlat (d : Char) : List (List Char) → List Char
  | [] => []
  | [p] => filterNW p
  | p :: rest => filterNW p ++ d :: delimFlat d rest

/-- A clause-split input is "clean" when no split part other than the last
strips to empty — exactly the condition under which no delimiter occurrence
is dropped. -/
def cleanOKB (t : List Char) : Bool :=
  match chooseDelim t with
  | some d => (pySplitOn d t).dropLast.all (fun p => !(pyStrip p).isEmpty)
  | none => true

/-- A body is "clean" when every sentence of every paragraph is clean for
clause splitting. -/
def bodyCleanB (body : List Char) : Bool :=
  (paraSplit body).all (fun para => (_split_sentences (pyStrip para)).all cleanOKB)

/-- The character at position `p`, if in range. -/
def charAt (t : List Char) (p : Nat) : Option Char := (t.drop p).head?

/-- Position `p` is a line start for `^` with `re.MULTILINE`, relative to an
initial flag (whether position 0 of `t` starts a line). -/
def lineStartAt (flag : Bool) (t : List Char) (p : Nat) : Prop :=
  if p = 0 then flag = true else charAt t (p - 1) = some '\n'

/-- The pattern `^#\s+(.+)$` matches at position `p` of `t`. -/
def headingAt (flag : Bool) (t : List Char) (p : Nat) : Prop :=
  lineStartAt flag t p ∧ charAt t p = some '#' ∧ (matchAfterHash (t.drop (p + 1))).isSome

/-- The lines of a text, split at newlines (claim-side notion used to state
what a "heading line" would be). -/
def pyLines : List Char → List (List Char)
  | [] => [[]]
  | c :: cs => if c == '\n' then [] :: pyLines cs else consHead c (pyLines cs)

/-- Claim-side reading of "a line matching a top-level heading": a single
`#` followed by whitespace.  (Deliberately generous: any line starting with
`#` and a whitespace character counts.) -/
def isH1LineB : List Char → Bool
  | '#' :: c :: _ => pySpace c
  | _ => false

/-! ## Basic lemmas about stripping, whitespace and joining -/

theorem headNW_append {xs ys : List Char} (h : xs ≠ []) :
    headNW (xs ++ ys) = headNW xs := by
  cases xs with
  | nil => exact absurd rfl h
  | cons c cs => rfl

theorem solid_ne_nil {p : List Char} (h : solid p = true) : p ≠ [] := by
  intro hn; subst hn; simp [solid, headNW] at h

theorem filterNW_append (xs ys : List Char) :
    filterNW (xs ++ ys) = filterNW xs ++ filterNW ys := by
  simp [filterNW]

theorem filterNW_dropWhile (xs : List Char) :
    filterNW (xs.dropWhile pySpace) = filterNW xs := by
  induction xs with
  | nil => rfl
  | cons c cs ih =>
    by_cases h : pySpace c
    · have h1 : (c :: cs).dropWhile pySpace = cs.dropWhile pySpace := by
        simp [List.dropWhile_cons, h]
      rw [h1, ih]
      simp [filterNW, h]
    · simp [List.dropWhile_cons, h]

theorem filterNW_reverse (xs : List Char) :
    filterNW xs.reverse = (filterNW xs).reverse := by
  simp [filterNW]

theorem filterNW_pyStrip (xs : List Char) : filterNW (pyStrip xs) = filterNW xs := by
  unfold pyStrip
  rw [filterNW_reverse, filterNW_dropWhile, filterNW_reverse, List.reverse_reverse,
    filterNW_dropWhile]

theorem headNW_dropWhile (xs : List Char) :
    xs.dropWhile pySpace = [] ∨ headNW (xs.dropWhile pySpace) = true := by
  induction xs with
  | nil => exact .inl rfl
  | cons c cs ih =>
    by_cases h : pySpace c
    · simpa [List.dropWhile_cons, h] using ih
    · right; simp [List.dropWhile_cons, h, headNW]

theorem pyStrip_reverse_aux (xs : List Char) :
    (pyStrip xs).reverse = (xs.dropWhile pySpace).reverse.dropWhile pySpace := by
  simp [pyStrip]

theorem headNW_pyStrip_reverse (xs : List Char) :
    pyStrip xs = [] ∨ headNW (pyStrip xs).reverse = true := by
  rw [pyStrip_reverse_aux]
  rcases headNW_dropWhile (xs.dropWhile pySpace).reverse with h | h
  · left
    have : (pyStrip xs).reverse = [] := by rw [pyStrip_reverse_aux, h]
    simpa using this
  · right; exact h

theorem prefix_head {c : Char} {p l : List Char} (h : p <+: l) (hp : p = c :: (p.drop 1)) :
    ∃ t, l = c :: t := by
  obtain ⟨t, ht⟩ := h
  rw [hp] at ht
  exact ⟨p.drop 1 ++ t, by simpa using ht.symm⟩

theorem headNW_pyStrip (xs : List Char) :
    pyStrip xs = [] ∨ headNW (pyStrip xs) = true := by
  cases hs : pyStrip xs with
  | nil => exact .inl rfl
  | cons c cs =>
    right
    have hpre : pyStrip xs <+: xs.dropWhile pySpace := by
      unfold pyStrip
      have := List.dropWhile_suffix (l := (xs.dropWhile pySpace).reverse) pySpace
      exact List.reverse_suffix.mp (by simpa using this)
    rcases headNW_dropWhile xs with h | h
    · rw [h] at hpre
      have := List.prefix_nil.mp hpre
      rw [hs] at this; cases this
    · obtain ⟨t, ht⟩ := hpre
      rw [hs] at ht
      rw [← ht] at h
      rw [headNW_append (by simp)] at h
      simpa [hs] using h

theorem solid_pyStrip (xs : List Char) :
    pyStrip xs = [] ∨ solid (pyStrip xs) = true := by
  rcases headNW_pyStrip xs with h | h
  · exact .inl h
  · rcases headNW_pyStrip_reverse xs with h2 | h2
    · exact .inl h2
    · right; simp [solid, h, h2]

theorem dropWhile_of_headNW {xs : List Char} (h : headNW xs = true) :
    xs.dropWhile pySpace = xs := by
  cases xs with
  | nil => rfl
  | cons c cs =>
    simp only [headNW, Bool.not_eq_true'] at h
    simp [List.dropWhile_cons, h]

theorem pyStrip_of_solid {xs : List Char} (h : solid xs = true) : pyStrip xs = xs := by
  simp only [solid, Bool.and_eq_true] at h
  unfold pyStrip
  rw [dropWhile_of_headNW h.1, dropWhile_of_headNW h.2, List.reverse_reverse]

theorem pyStrip_nil : pyStrip [] = [] := rfl

theorem pyStrip_idem (xs : List Char) : pyStrip (pyStrip xs) = pyStrip xs := by
  rcases solid_pyStrip xs with h | h
  · rw [h]; rfl
  · exact pyStrip_of_solid h

theorem pyStrip_ne_nil_of_filterNW {xs : List Char} (h : filterNW xs ≠ []) :
    pyStrip xs ≠ [] := by
  intro hn
  have := filterNW_pyStrip xs
  rw [hn] at this
  exact h (by simpa [filterNW] using this.symm)

theorem filterNW_eq_nil_of_strip {xs : List Char} (h : pyStrip xs = []) :
    filterNW xs = [] := by
  by_contra hne
  exact pyStrip_ne_nil_of_filterNW hne h

theorem joinSpace_nil : joinSpace [] = [] := rfl

theorem joinSpace_single (p : List Char) : joinSpace [p] = p := by
  simp [joinSpace]

theorem joinSpace_cons (p : List Char) (ps : List (List Char)) :
    joinSpace (p :: ps) = p ++ (if ps.isEmpty then [] else ' ' :: joinSpace ps) := by
  cases ps with
  | nil => simp [joinSpace]
  | cons q qs => simp [joinSpace, List.intersperse]

theorem solid_joinSpace {ps : List (List Char)} (hne : ps ≠ [])
    (hall : ∀ p ∈ ps, solid p = true) : solid (joinSpace ps) = true := by
  induction ps with
  | nil => exact absurd rfl hne
  | cons p ps ih =>
    have hp := hall p (by simp)
    cases ps with
    | nil => simpa [joinSpace_single] using hp
    | cons q qs =>
      have hjs := ih (by simp) (fun r hr => hall r (by simp [hr]))
      rw [joinSpace_cons]
      simp only [List.isEmpty_cons, if_false, Bool.false_eq_true]
      simp only [solid, Bool.and_eq_true] at hp hjs ⊢
      constructor
      · rw [headNW_append (solid_ne_nil (by simp [solid, hp.1, hp.2]))]
        exact hp.1
      · have hjs_ne : (joinSpace (q :: qs)).reverse ≠ [] := by
          simpa using solid_ne_nil (p := joinSpace (q :: qs)) (by simp [solid, hjs.1, hjs.2])
        rw [List.reverse_append, List.reverse_cons]
        rw [show headNW (((joinSpace (q :: qs)).reverse ++ [' ']) ++ p.reverse) =
          headNW ((joinSpace (q :: qs)).reverse ++ [' ']) from headNW_append (by simp)]
        rw [headNW_append hjs_ne]
        exact hjs.2

theorem length_joinSpace_append (cur : List (List Char)) (p : List Char) :
    ((joinSpace (cur ++ [p])).length : Int) =
      ((joinSpace cur).length : Int) + p.length + (if cur.isEmpty then 0 else 1) := by
  induction cur with
  | nil => simp [joinSpace_single, joinSpace_nil]
  | cons c cs ih =>
    rw [List.cons_append, joinSpace_cons, joinSpace_cons c cs]
    cases cs with
    | nil =>
      simp [joinSpace_single] <;> (push_cast <;> omega)
    | cons d ds =>
      simp [List.length_append] at ih ⊢
      push_cast at ih ⊢
      omega

theorem filterNW_joinSpace (ps : List (List Char)) :
    filterNW (joinSpace ps) = (ps.map filterNW).flatten := by
  induction ps with
  | nil => rfl
  | cons p qs ih =>
    rw [joinSpace_cons]
    cases qs with
    | nil => simp [filterNW_append, filterNW]
    | cons q rs =>
      simp only [List.isEmpty_cons, Bool.false_eq_true, if_false]
      rw [filterNW_append]
      have : filterNW (' ' :: joinSpace (q :: rs)) = filterNW (joinSpace (q :: rs)) := by
        simp [filterNW, pySpace]
      rw [this, ih]
      simp

/-! ## Words and hard-cut slices -/

theorem wordlike_solid {w : List Char} (h : wordlike w) : solid w = true := by
  obtain ⟨hne, hall⟩ := h
  have h1 : headNW w = true := by
    cases w with
    | nil => exact absurd rfl hne
    | cons c cs => simp [headNW, hall c (by simp)]
  have h2 : headNW w.reverse = true := by
    cases hr : w.reverse with
    | nil => exact absurd (by simpa using hr) hne
    | cons c cs =>
      have : c ∈ w := by
        have : c ∈ w.reverse := by simp [hr]
        simpa using this
      simp [headNW, hall c this]
  simp [solid, h1, h2]

theorem pySplitWs_wordlike : ∀ t : List Char, ∀ w ∈ pySplitWs t, wordlike w := by
  intro t
  induction t using pySplitWs.induct with
  | case1 => intro w hw; simp [pySplitWs] at hw
  | case2 c cs h ih => intro w hw; exact ih w (by simpa [pySplitWs, h] using hw)
  | case3 c cs h ih =>
    intro w hw
    rw [pySplitWs] at hw
    simp only [h, if_false, Bool.false_eq_true, List.mem_cons] at hw
    rcases hw with hw | hw
    · subst hw
      refine ⟨by simp, ?_⟩
      intro x hx
      rcases List.mem_cons.mp hx with hx | hx
      · subst hx; simpa using h
      · have := List.mem_takeWhile_imp hx
        simpa using this
    · exact ih w hw

theorem pySplitWs_flatten : ∀ t : List Char, (pySplitWs t).flatten = filterNW t := by
  intro t
  induction t using pySplitWs.induct with
  | case1 => simp [pySplitWs]; rfl
  | case2 c cs h ih =>
    rw [pySplitWs]
    simp only [h, if_true]
    rw [ih]
    simp [filterNW, h]
  | case3 c cs h ih =>
    rw [pySplitWs]
    simp only [h, if_false, Bool.false_eq_true, List.flatten_cons]
    rw [ih]
    have : filterNW (c :: cs) = c :: filterNW cs := by simp [filterNW, h]
    rw [this]
    have hsplit : filterNW cs =
        cs.takeWhile (fun x => !pySpace x) ++ filterNW (cs.dropWhile (fun x => !pySpace x)) := by
      conv_lhs => rw [← List.takeWhile_append_dropWhile (p := fun x => !pySpace x) (l := cs)]
      rw [filterNW_append]
      congr 1
      simp only [filterNW]
      refine List.filter_eq_self.mpr ?_
      intro x hx
      simpa using List.mem_takeWhile_imp hx
    rw [hsplit]
    simp

theorem slicesOf_flatten {w : List Char} {k : Nat} (hk : 0 < k) :
    (slicesOf w k).flatten = w := by
  induction w, k using slicesOf.induct with
  | case1 k => simp [slicesOf]
  | case2 c cs => omega
  | case3 c cs k ih => simp [slicesOf, ih]

theorem slicesOf_mem {w : List Char} {k : Nat} (hk : 0 < k) :
    ∀ s ∈ slicesOf w k, s ≠ [] ∧ s.length ≤ k ∧ ∀ c ∈ s, c ∈ w := by
  induction w, k using slicesOf.induct with
  | case1 k => intro s hs; simp [slicesOf] at hs
  | case2 c cs => omega
  | case3 c cs k ih =>
    intro s hs
    rw [slicesOf] at hs
    rcases List.mem_cons.mp hs with hs | hs
    · subst hs
      refine ⟨by simp, ?_, ?_⟩
      · have := List.length_take_le k cs
        simp only [List.length_cons]
        omega
      · intro x hx
        rcases List.mem_cons.mp hx with hx | hx
        · simp [hx]
        · have := List.take_subset k cs
          simp [this hx]
    · obtain ⟨h1, h2, h3⟩ := ih (by omega) s hs
      refine ⟨h1, h2, ?_⟩
      intro x hx
      have := List.drop_subset k cs
      simp [this (h3 x hx)]

theorem slicesOf_dropLast_length {w : List Char} {k : Nat} (hk : 0 < k) :
    ∀ s ∈ (slicesOf w k).dropLast, s.length = k := by
  induction w, k using slicesOf.induct with
  | case1 k => intro s hs; simp [slicesOf] at hs
  | case2 c cs => omega
  | case3 c cs k ih =>
    intro s hs
    rw [slicesOf] at hs
    cases hrest : slicesOf (cs.drop k) (k + 1) with
    | nil => rw [hrest] at hs; simp at hs
    | cons r rs =>
      rw [hrest, List.dropLast_cons_of_ne_nil (by simp)] at hs
      rcases List.mem_cons.mp hs with hs | hs
      · subst hs
        have hne : cs.drop k ≠ [] := by
          intro hdrop
          rw [hdrop] at hrest
          simp [slicesOf] at hrest
        have : k ≤ cs.length := by
          by_contra hlt
          exact hne (List.drop_eq_nil_of_le (by omega))
        simp only [List.length_cons, List.length_take]
        omega
      · rw [← hrest] at hs
        exact ih (by omega) s hs

theorem hardCut_pos {w : List Char} {m : Int} (hm : 0 < m) :
    hardCut w m = .ok (slicesOf w m.toNat) := by
  unfold hardCut
  rw [if_neg (by omega), if_neg (by omega)]

theorem hardCut_total {w : List Char} {m : Int} (hm : m ≠ 0) :
    ∃ out, hardCut w m = .ok out := by
  unfold hardCut
  rw [if_neg hm]
  by_cases h : m < 0
  · exact ⟨[], by rw [if_pos h]⟩
  · exact ⟨_, by rw [if_neg h]⟩

/-! ## The three loops are instances of the generic packer -/

theorem wordLoop_eq_packCore (m : Int) :
    ∀ ws cur clen, wordLoop m ws cur clen = packCore m (fun w => hardCut w m) ws cur clen := by
  intro ws
  induction ws with
  | nil => intro cur clen; rfl
  | cons w rest ih =>
    intro cur clen
    rw [wordLoop, packCore]
    by_cases h1 : (w.length : Int) > m
    · rw [if_pos h1, if_pos h1]
      cases hardCut w m with
      | error e => rfl
      | ok cut => rw [ih]
    · rw [if_neg h1, if_neg h1]
      by_cases h2 : clen + ((w.length : Int) + (if cur.isEmpty then 0 else 1)) > m
      · rw [if_pos h2, if_pos h2, ih]
      · rw [if_neg h2, if_neg h2, ih]

theorem clauseLoop_eq_packCore (m : Int) (d : Char) :
    ∀ parts cur clen,
      clauseLoop m d parts cur clen =
        packCore m (fun q => _split_at_words q m) (effList d parts) cur clen := by
  intro parts
  induction parts with
  | nil => intro cur clen; rfl
  | cons p rest ih =>
    intro cur clen
    rw [clauseLoop]
    by_cases hq : (pyStrip p).isEmpty
    · rw [if_pos hq]
      have he : effList d (p :: rest) = effList d rest := by
        rw [effList]; simp [hq]
      rw [he, ih]
    · rw [if_neg hq]
      have he : effList d (p :: rest) =
          (if rest.isEmpty then pyStrip p else pyStrip p ++ [d]) :: effList d rest := by
        rw [effList]; simp [hq]
      rw [he, packCore]
      by_cases h1 : (((if rest.isEmpty then pyStrip p else pyStrip p ++ [d]).length : Int)) > m
      · rw [if_pos h1, if_pos h1]
        cases _split_at_words (if rest.isEmpty then pyStrip p else pyStrip p ++ [d]) m with
        | error e => rfl
        | ok wc => rw [ih]
      · rw [if_neg h1, if_neg h1]
        by_cases h2 : clen + (((if rest.isEmpty then pyStrip p else pyStrip p ++ [d]).length : Int) +
            (if cur.isEmpty then 0 else 1)) > m
        · rw [if_pos h2, if_pos h2, ih]
        · rw [if_neg h2, if_neg h2, ih]

theorem sentLoop_eq_packCore (m : Int) :
    ∀ ss cur clen,
      sentLoop m ss cur clen =
        packCore m (fun s => _split_at_clauses s m) (effSent ss) cur clen := by
  intro ss
  induction ss with
  | nil => intro cur clen; rfl
  | cons s0 rest ih =>
    intro cur clen
    rw [sentLoop]
    by_cases hq : (pyStrip s0).isEmpty
    · rw [if_pos hq]
      have he : effSent (s0 :: rest) = effSent rest := by
        rw [effSent]; simp [hq]
      rw [he, ih]
    · rw [if_neg hq]
      have he : effSent (s0 :: rest) = pyStrip s0 :: effSent rest := by
        rw [effSent]; simp [hq]
      rw [he, packCore]
      by_cases h1 : ((pyStrip s0).length : Int) > m
      · rw [if_pos h1, if_pos h1]
        cases _split_at_clauses (pyStrip s0) m with
        | error e => rfl
        | ok sub => rw [ih]
      · rw [if_neg h1, if_neg h1]
        by_cases h2 : clen + (((pyStrip s0).length : Int) + (if cur.isEmpty then 0 else 1)) > m
        · rw [if_pos h2, if_pos h2, ih]
        · rw [if_neg h2, if_neg h2, ih]

/-! ## Generic packer lemmas -/

theorem goodOut_append {m : Int} {a b : List (List Char)}
    (ha : goodOut m a) (hb : goodOut m b) : goodOut m (a ++ b) := by
  intro c hc
  rcases List.mem_append.mp hc with h | h
  · exact ha c h
  · exact hb c h

theorem goodOut_flush {m : Int} {cur : List (List Char)}
    (hcur : ∀ p ∈ cur, solid p = true)
    (hle : ((joinSpace cur).length : Int) ≤ m) :
    goodOut m (if cur.isEmpty then [] else [joinSpace cur]) := by
  by_cases hc : cur.isEmpty
  · rw [if_pos hc]; intro c hcm; cases hcm
  · rw [if_neg hc]
    intro c hcm
    rcases List.mem_singleton.mp hcm with rfl
    refine ⟨solid_joinSpace ?_ hcur, hle⟩
    intro hnil
    rw [hnil] at hc
    exact hc rfl

theorem flush_pres (cur : List (List Char)) :
    (((if cur.isEmpty then [] else [joinSpace cur]).map filterNW)).flatten =
      (cur.map filterNW).flatten := by
  by_cases hc : cur.isEmpty
  · rw [if_pos hc]
    have : cur = [] := by
      cases cur with
      | nil => rfl
      | cons a as => simp at hc
    rw [this]
  · rw [if_neg hc]
    simp only [List.map_cons, List.map_nil, List.flatten_cons, List.flatten_nil,
      List.append_nil]
    exact filterNW_joinSpace cur

theorem packCore_total (m : Int) (H : List Char → Except Unit (List (List Char))) :
    ∀ pieces, (∀ p ∈ pieces, ∃ out, H p = .ok out) →
      ∀ cur clen, ∃ out, packCore m H pieces cur clen = .ok out := by
  intro pieces
  induction pieces with
  | nil => intro _ cur clen; exact ⟨_, rfl⟩
  | cons p rest ih =>
    intro hH cur clen
    rw [packCore]
    by_cases h1 : (p.length : Int) > m
    · rw [if_pos h1]
      obtain ⟨sub, hsub⟩ := hH p (by simp)
      rw [hsub]
      obtain ⟨more, hmore⟩ := ih (fun x hx => hH x (by simp [hx])) [] 0
      rw [hmore]
      exact ⟨_, rfl⟩
    · rw [if_neg h1]
      by_cases h2 : clen + ((p.length : Int) + (if cur.isEmpty then 0 else 1)) > m
      · rw [if_pos h2]
        obtain ⟨more, hmore⟩ := ih (fun x hx => hH x (by simp [hx])) [p] (p.length : Int)
        rw [hmore]
        exact ⟨_, rfl⟩
      · rw [if_neg h2]
        exact ih (fun x hx => hH x (by simp [hx])) _ _

theorem packCore_good (m : Int) (H : List Char → Except Unit (List (List Char)))
    (hm : 0 < m) :
    ∀ pieces, (∀ p ∈ pieces, solid p = true) →
      (∀ p ∈ pieces, (p.length : Int) > m → ∀ out, H p = .ok out → goodOut m out) →
      ∀ cur clen out,
        (∀ p ∈ cur, solid p = true) →
        clen = ((joinSpace cur).length : Int) → clen ≤ m →
        packCore m H pieces cur clen = .ok out → goodOut m out := by
  intro pieces
  induction pieces with
  | nil =>
    intro _ _ cur clen out hcur hlen hle hok
    simp only [packCore, Except.ok.injEq] at hok
    subst hok
    exact goodOut_flush hcur (hlen ▸ hle)
  | cons p rest ih =>
    intro hsolid hH cur clen out hcur hlen hle hok
    rw [packCore] at hok
    by_cases h1 : (p.length : Int) > m
    · rw [if_pos h1] at hok
      cases hsub : H p with
      | error e => rw [hsub] at hok; cases hok
      | ok sub =>
        rw [hsub] at hok
        cases hmore : packCore m H rest [] 0 with
        | error e => rw [hmore] at hok; cases hok
        | ok more =>
          rw [hmore] at hok
          simp only [Except.ok.injEq] at hok
          subst hok
          refine goodOut_append (goodOut_append (goodOut_flush hcur (hlen ▸ hle)) ?_) ?_
          · exact hH p (by simp) h1 sub hsub
          · exact ih (fun x hx => hsolid x (by simp [hx]))
              (fun x hx => hH x (by simp [hx])) [] 0 more
              (by intro x hx; cases hx) (by simp [joinSpace_nil]) (by omega) hmore
    · rw [if_neg h1] at hok
      by_cases h2 : clen + ((p.length : Int) + (if cur.isEmpty then 0 else 1)) > m
      · rw [if_pos h2] at hok
        cases hmore : packCore m H rest [p] (p.length : Int) with
        | error e => rw [hmore] at hok; cases hok
        | ok more =>
          rw [hmore] at hok
          simp only [Except.ok.injEq] at hok
          subst hok
          refine goodOut_append (goodOut_flush hcur (hlen ▸ hle)) ?_
          exact ih (fun x hx => hsolid x (by simp [hx]))
            (fun x hx => hH x (by simp [hx])) [p] (p.length : Int) more
            (by intro y hy; simp only [List.mem_singleton] at hy; rw [hy]
                exact hsolid p (by simp))
            (by simp [joinSpace_single]) (by omega) hmore
      · rw [if_neg h2] at hok
        refine ih (fun x hx => hsolid x (by simp [hx]))
          (fun x hx => hH x (by simp [hx])) (cur ++ [p]) _ out ?_ ?_ (by omega) hok
        · intro x hx
          rcases List.mem_append.mp hx with hx | hx
          · exact hcur x hx
          · simp only [List.mem_singleton] at hx
            rw [hx]
            exact hsolid p (by simp)
        · rw [length_joinSpace_append, ← hlen]
          ring

theorem packCore_pres (m : Int) (H : List Char → Except Unit (List (List Char))) :
    ∀ pieces, (∀ p ∈ pieces, ∀ out, H p = .ok out → (out.map filterNW).flatten = filterNW p) →
      ∀ cur clen out, packCore m H pieces cur clen = .ok out →
        (out.map filterNW).flatten =
          (cur.map filterNW).flatten ++ (pieces.map filterNW).flatten := by
  intro pieces
  induction pieces with
  | nil =>
    intro _ cur clen out hok
    simp only [packCore, Except.ok.injEq] at hok
    subst hok
    rw [flush_pres]
    simp
  | cons p rest ih =>
    intro hH cur clen out hok
    rw [packCore] at hok
    by_cases h1 : (p.length : Int) > m
    · rw [if_pos h1] at hok
      cases hsub : H p with
      | error e => rw [hsub] at hok; cases hok
      | ok sub =>
        rw [hsub] at hok
        cases hmore : packCore m H rest [] 0 with
        | error e => rw [hmore] at hok; cases hok
        | ok more =>
          rw [hmore] at hok
          simp only [Except.ok.injEq] at hok
          subst hok
          have hmp := ih (fun x hx out hout => hH x (by simp [hx]) out hout) [] 0 more hmore
          simp only [List.map_nil, List.flatten_nil, List.nil_append] at hmp
          simp only [List.map_append, List.flatten_append, flush_pres, hmp,
            List.map_cons, List.flatten_cons]
          rw [hH p (by simp) sub hsub]
          simp [List.append_assoc]
    · rw [if_neg h1] at hok
      by_cases h2 : clen + ((p.length : Int) + (if cur.isEmpty then 0 else 1)) > m
      · rw [if_pos h2] at hok
        cases hmore : packCore m H rest [p] (p.length : Int) with
        | error e => rw [hmore] at hok; cases hok
        | ok more =>
          rw [hmore] at hok
          simp only [Except.ok.injEq] at hok
          subst hok
          have hmp := ih (fun x hx out hout => hH x (by simp [hx]) out hout)
            [p] (p.length : Int) more hmore
          simp only [List.map_cons, List.map_nil, List.flatten_cons, List.flatten_nil,
            List.append_nil] at hmp
          simp only [List.map_append, List.flatten_append, flush_pres, hmp,
            List.map_cons, List.flatten_cons]
      · rw [if_neg h2] at hok
        have hmp := ih (fun x hx out hout => hH x (by simp [hx]) out hout)
          (cur ++ [p]) _ out hok
        simp only [List.map_append, List.flatten_append, List.map_cons, List.map_nil,
          List.flatten_cons, List.flatten_nil, List.append_nil] at hmp
        simp only [List.map_cons, List.flatten_cons]
        rw [hmp]
        simp [List.append_assoc]

/-! ## Word-split level lemmas -/

theorem filterNW_flatten (l : List (List Char)) :
    filterNW l.flatten = (l.map filterNW).flatten := by
  induction l with
  | nil => rfl
  | cons a rest ih => simp [filterNW_append, ih]

theorem filterNW_idem (t : List Char) : filterNW (filterNW t) = filterNW t := by
  simp [filterNW, List.filter_filter]

theorem filterNW_wordlike {w : List Char} (h : wordlike w) : filterNW w = w := by
  refine List.filter_eq_self.mpr ?_
  intro x hx
  simp [h.2 x hx]

theorem words_total {t : List Char} {m : Int} (hm : m ≠ 0) :
    ∃ out, _split_at_words t m = .ok out := by
  unfold _split_at_words
  rw [wordLoop_eq_packCore]
  exact packCore_total m _ _ (fun p _ => hardCut_total hm) [] 0

theorem words_good {t : List Char} {m : Int} (hm : 0 < m) {out : List (List Char)}
    (hok : _split_at_words t m = .ok out) : goodOut m out := by
  unfold _split_at_words at hok
  rw [wordLoop_eq_packCore] at hok
  refine packCore_good m _ hm (pySplitWs t)
    (fun p hp => wordlike_solid (pySplitWs_wordlike t p hp)) ?_ [] 0 out
    (by intro x hx; cases hx) (by simp [joinSpace_nil]) (by omega) hok
  intro p hp _ sub hsub
  rw [hardCut_pos hm] at hsub
  simp only [Except.ok.injEq] at hsub
  subst hsub
  intro s hs
  have hw := pySplitWs_wordlike t p hp
  have hk : 0 < m.toNat := by omega
  obtain ⟨h1, h2, h3⟩ := slicesOf_mem hk s hs
  refine ⟨wordlike_solid ⟨h1, fun c hc => hw.2 c (h3 c hc)⟩, ?_⟩
  have : (m.toNat : Int) = m := by omega
  omega

theorem words_pres {t : List Char} {m : Int} (hm : 0 < m) {out : List (List Char)}
    (hok : _split_at_words t m = .ok out) :
    (out.map filterNW).flatten = filterNW t := by
  unfold _split_at_words at hok
  rw [wordLoop_eq_packCore] at hok
  have h := packCore_pres m _ (pySplitWs t) ?_ [] 0 out hok
  · rw [h]
    simp only [List.map_nil, List.flatten_nil, List.nil_append]
    rw [← filterNW_flatten, pySplitWs_flatten, filterNW_idem]
  · intro p hp sub hsub
    rw [hardCut_pos hm] at hsub
    simp only [Except.ok.injEq] at hsub
    subst hsub
    rw [← filterNW_flatten, slicesOf_flatten (by omega)]

/-! ## Clause-split level lemmas -/

theorem chooseDelim_cases {t : List Char} {d : Char} (h : chooseDelim t = some d) :
    d = ';' ∨ d = ':' ∨ d = ',' := by
  unfold chooseDelim at h
  by_cases h1 : t.contains ';'
  · rw [if_pos h1] at h; exact .inl (by injection h with h; exact h.symm)
  · rw [if_neg h1] at h
    by_cases h2 : t.contains ':'
    · rw [if_pos h2] at h; exact .inr (.inl (by injection h with h; exact h.symm))
    · rw [if_neg h2] at h
      by_cases h3 : t.contains ','
      · rw [if_pos h3] at h; exact .inr (.inr (by injection h with h; exact h.symm))
      · rw [if_neg h3] at h; cases h

theorem chooseDelim_not_space {t : List Char} {d : Char} (h : chooseDelim t = some d) :
    pySpace d = false := by
  rcases chooseDelim_cases h with rfl | rfl | rfl <;> rfl

theorem effList_solid {d : Char} (hd : pySpace d = false) :
    ∀ parts, ∀ q ∈ effList d parts, solid q = true := by
  intro parts
  induction parts with
  | nil => intro q hq; cases hq
  | cons p rest ih =>
    intro q hq
    rw [effList] at hq
    by_cases hs : (pyStrip p).isEmpty
    · rw [if_pos hs] at hq
      exact ih q (by simpa using hq)
    · rw [if_neg hs] at hq
      rcases List.mem_append.mp hq with hq | hq
      · have hsolid : solid (pyStrip p) = true := by
          rcases solid_pyStrip p with h | h
          · rw [h] at hs; simp at hs
          · exact h
        rcases List.mem_singleton.mp hq with rfl
        by_cases hr : rest.isEmpty
        · rw [if_pos hr]; exact hsolid
        · rw [if_neg hr]
          simp only [solid, Bool.and_eq_true] at hsolid ⊢
          constructor
          · rw [headNW_append (solid_ne_nil (by simp [solid, hsolid.1, hsolid.2]))]
            exact hsolid.1
          · rw [List.reverse_append]
            simp only [List.reverse_cons, List.reverse_nil, List.nil_append,
              List.singleton_append]
            simp [headNW, hd]
      · exact ih q hq

theorem clauses_total {t : List Char} {m : Int} (hm : m ≠ 0) :
    ∃ out, _split_at_clauses t m = .ok out := by
  unfold _split_at_clauses
  cases chooseDelim t with
  | none => exact words_total hm
  | some d =>
    dsimp only
    rw [clauseLoop_eq_packCore]
    exact packCore_total m _ _ (fun p _ => words_total hm) [] 0

theorem clauses_good {t : List Char} {m : Int} (hm : 0 < m) {out : List (List Char)}
    (hok : _split_at_clauses t m = .ok out) : goodOut m out := by
  unfold _split_at_clauses at hok
  cases hd : chooseDelim t with
  | none => rw [hd] at hok; exact words_good hm hok
  | some d =>
    rw [hd] at hok
    dsimp only at hok
    rw [clauseLoop_eq_packCore] at hok
    refine packCore_good m _ hm _
      (effList_solid (chooseDelim_not_space hd) (pySplitOn d t)) ?_ [] 0 out
      (by intro x hx; cases hx) (by simp [joinSpace_nil]) (by omega) hok
    intro p _ _ sub hsub
    exact words_good hm hsub

theorem filterNW_nil_of_strip_empty {p : List Char} (h : (pyStrip p).isEmpty = true) :
    filterNW p = [] := by
  refine filterNW_eq_nil_of_strip ?_
  cases hp : pyStrip p with
  | nil => rfl
  | cons a as => rw [hp] at h; simp at h

theorem filterNW_append_delim {p : List Char} {d : Char} (hd : pySpace d = false) :
    filterNW (p ++ [d]) = filterNW p ++ [d] := by
  rw [filterNW_append]
  simp [filterNW, hd]

theorem delimFlat_cons₂ (d : Char) (p q : List Char) (qs : List (List Char)) :
    delimFlat d (p :: q :: qs) = filterNW p ++ d :: delimFlat d (q :: qs) := rfl

theorem delimFlat_single (d : Char) (p : List Char) : delimFlat d [p] = filterNW p := rfl

theorem delimFlat_consHead {d c : Char} (hd : pySpace d = false) (hc : pySpace c = false) :
    ∀ ps : List (List Char), ps ≠ [] →
      delimFlat d (consHead c ps) = c :: delimFlat d ps := by
  intro ps hne
  cases ps with
  | nil => exact absurd rfl hne
  | cons p rest =>
    cases rest with
    | nil => simp [consHead, delimFlat, filterNW, hc]
    | cons q qs =>
      show delimFlat d ((c :: p) :: q :: qs) = c :: delimFlat d (p :: q :: qs)
      rw [delimFlat_cons₂, delimFlat_cons₂]
      simp [filterNW, hc]

theorem delimFlat_consHead_ws {d c : Char} (hd : pySpace d = false) (hc : pySpace c = true) :
    ∀ ps : List (List Char), ps ≠ [] →
      delimFlat d (consHead c ps) = delimFlat d ps := by
  intro ps hne
  cases ps with
  | nil => exact absurd rfl hne
  | cons p rest =>
    cases rest with
    | nil => simp [consHead, delimFlat, filterNW, hc]
    | cons q qs =>
      show delimFlat d ((c :: p) :: q :: qs) = delimFlat d (p :: q :: qs)
      rw [delimFlat_cons₂, delimFlat_cons₂]
      simp [filterNW, hc]

theorem pySplitOn_ne_nil (d : Char) (t : List Char) : pySplitOn d t ≠ [] := by
  induction t with
  | nil => simp [pySplitOn]
  | cons c cs ih =>
    rw [pySplitOn]
    by_cases h : c == d
    · simp [h]
    · rw [if_neg h]
      cases hp : pySplitOn d cs with
      | nil => exact absurd hp ih
      | cons p ps => simp [consHead]

theorem delimFlat_pySplitOn {d : Char} (hd : pySpace d = false) (t : List Char) :
    delimFlat d (pySplitOn d t) = filterNW t := by
  induction t with
  | nil => simp [pySplitOn, delimFlat, filterNW]
  | cons c cs ih =>
    rw [pySplitOn]
    by_cases h : c == d
    · rw [if_pos h]
      have hcd : c = d := by simpa using h
      cases hp : pySplitOn d cs with
      | nil => exact absurd hp (pySplitOn_ne_nil d cs)
      | cons p ps =>
        show delimFlat d ([] :: p :: ps) = filterNW (c :: cs)
        rw [delimFlat_cons₂]
        have : filterNW (c :: cs) = d :: filterNW cs := by
          simp [filterNW, hcd, hd]
        rw [this, ← hp, ih]
        simp [filterNW]
    · rw [if_neg h]
      by_cases hc : pySpace c
      · rw [delimFlat_consHead_ws hd hc _ (pySplitOn_ne_nil d cs), ih]
        simp [filterNW, hc]
      · rw [delimFlat_consHead hd (by simpa using hc) _ (pySplitOn_ne_nil d cs), ih]
        simp [filterNW, hc]

theorem effList_filterNW {d : Char} (hd : pySpace d = false) :
    ∀ parts : List (List Char),
      (∀ p ∈ parts.dropLast, (pyStrip p).isEmpty = false) →
      ((effList d parts).map filterNW).flatten = delimFlat d parts := by
  intro parts
  induction parts with
  | nil => intro _; rfl
  | cons p rest ih =>
    intro hclean
    cases rest with
    | nil =>
      rw [effList]
      by_cases hs : (pyStrip p).isEmpty
      · rw [if_pos hs]
        simp only [effList, List.nil_append, List.map_nil, List.flatten_nil]
        show ([] : List Char) = delimFlat d [p]
        show ([] : List Char) = filterNW p
        rw [filterNW_nil_of_strip_empty hs]
      · rw [if_neg hs]
        simp only [List.isEmpty_nil, if_true, effList, List.append_nil, List.map_cons,
          List.map_nil, List.flatten_cons, List.flatten_nil]
        rw [delimFlat_single, ← filterNW_pyStrip p]
    | cons q qs =>
      have hp : (pyStrip p).isEmpty = false := by
        apply hclean
        simp [List.dropLast_cons_of_ne_nil]
      rw [effList, if_neg (by simp [hp])]
      simp only [List.isEmpty_cons, Bool.false_eq_true, if_false, List.singleton_append,
        List.map_cons, List.flatten_cons]
      rw [ih ?_]
      · rw [delimFlat_cons₂, filterNW_append_delim hd, filterNW_pyStrip]
        simp
      · intro x hx
        apply hclean
        rw [List.dropLast_cons_of_ne_nil (by simp)]
        simp [hx]

theorem clauses_pres {t : List Char} {m : Int} (hm : 0 < m)
    (hclean : cleanOKB t = true) {out : List (List Char)}
    (hok : _split_at_clauses t m = .ok out) :
    (out.map filterNW).flatten = filterNW t := by
  unfold _split_at_clauses at hok
  cases hd : chooseDelim t with
  | none => rw [hd] at hok; exact words_pres hm hok
  | some d =>
    rw [hd] at hok
    dsimp only at hok
    rw [clauseLoop_eq_packCore] at hok
    have h := packCore_pres m _ (effList d (pySplitOn d t))
      (fun p _ sub hsub => words_pres hm hsub) [] 0 out hok
    rw [h]
    simp only [List.map_nil, List.flatten_nil, List.nil_append]
    have hdns := chooseDelim_not_space hd
    rw [effList_filterNW hdns _ ?_, delimFlat_pySplitOn hdns]
    intro p hp
    unfold cleanOKB at hclean
    rw [hd] at hclean
    simp only [List.all_eq_true] at hclean
    have := hclean p hp
    simpa using this

/-! ## Sentence-split and paragraph-split preservation -/

theorem flatten_consHead (c : Char) (ps : List (List Char)) :
    ((consHead c ps).map filterNW).flatten = filterNW [c] ++ (ps.map filterNW).flatten := by
  cases ps with
  | nil => simp [consHead, filterNW]
  | cons p rest =>
    simp only [consHead, List.map_cons, List.flatten_cons]
    rw [show (c :: p) = [c] ++ p by rfl, filterNW_append]
    simp

theorem filterNW_all_ws {xs : List Char} (h : ∀ x ∈ xs, pySpace x = true) :
    filterNW xs = [] := by
  simp only [filterNW, List.filter_eq_nil_iff]
  intro x hx
  simp [h x hx]

theorem sentSplitCore_pres :
    ∀ (prev : Option Char) (t : List Char),
      ((sentSplitCore prev t).map filterNW).flatten = filterNW t := by
  intro prev t
  induction prev, t using sentSplitCore.induct with
  | case1 prev hterm =>
    rw [sentSplitCore, if_pos hterm]
    simp [filterNW]
  | case2 prev hterm =>
    rw [sentSplitCore, if_neg hterm]
    simp [filterNW]
  | case3 prev c cs hcond hempty hnl =>
    rw [sentSplitCore, if_pos hcond, if_pos hempty, if_pos hnl]
    simp only [Bool.and_eq_true, beq_iff_eq, List.isEmpty_iff] at hnl
    obtain ⟨h1, h2⟩ := hnl
    subst h1
    subst h2
    simp [filterNW, pySpace]
  | case4 prev c cs hcond hempty hnl ih =>
    rw [sentSplitCore, if_pos hcond, if_pos hempty, if_neg hnl]
    rw [flatten_consHead, ih]
    rw [show filterNW (c :: cs) = filterNW [c] ++ filterNW cs from filterNW_append [c] cs]
  | case5 prev c cs hcond hempty hupper ih =>
    rw [sentSplitCore, if_pos hcond, if_neg hempty, if_pos hupper]
    simp only [List.map_cons, List.flatten_cons]
    rw [ih]
    have h1 : filterNW (c :: cs) = filterNW cs := by
      simp only [Bool.and_eq_true] at hcond
      simp [filterNW, hcond.2]
    rw [h1, filterNW_dropWhile]
    simp [filterNW]
  | case6 prev c cs hcond hempty hupper ih =>
    rw [sentSplitCore, if_pos hcond, if_neg hempty, if_neg hupper]
    rw [flatten_consHead, ih]
    rw [show filterNW (c :: cs) = filterNW [c] ++ filterNW cs from filterNW_append [c] cs]
  | case7 prev c cs hcond ih =>
    rw [sentSplitCore, if_neg hcond]
    rw [flatten_consHead, ih]
    rw [show filterNW (c :: cs) = filterNW [c] ++ filterNW cs from filterNW_append [c] cs]

theorem stripFilter_pres (ps : List (List Char)) :
    (((ps.map pyStrip).filter (fun s => !s.isEmpty)).map filterNW).flatten =
      (ps.map filterNW).flatten := by
  induction ps with
  | nil => rfl
  | cons s rest ih =>
    simp only [List.map_cons, List.filter_cons]
    by_cases hs : (pyStrip s).isEmpty
    · simp only [hs, Bool.not_true, Bool.false_eq_true, if_false]
      rw [ih, List.flatten_cons, filterNW_nil_of_strip_empty hs]
      simp
    · simp only [hs, Bool.not_false, if_true, List.map_cons, List.flatten_cons]
      rw [ih, filterNW_pyStrip]

theorem split_sentences_pres (t : List Char) :
    ((_split_sentences t).map filterNW).flatten = filterNW t := by
  unfold _split_sentences
  rw [stripFilter_pres, sentSplitCore_pres]

theorem lastNlInRun_ws :
    ∀ (cs : List Char) (j : Nat), lastNlInRun cs = some j →
      ∀ x ∈ cs.take (j + 1), pySpace x = true := by
  intro cs
  induction cs with
  | nil => intro j h; cases h
  | cons c rest ih =>
    intro j h
    rw [lastNlInRun] at h
    by_cases hc : pySpace c
    · rw [if_pos hc] at h
      cases hrec : lastNlInRun rest with
      | some j2 =>
        rw [hrec] at h
        injection h with h
        subst h
        intro x hx
        simp only [List.take_succ_cons, List.mem_cons] at hx
        rcases hx with rfl | hx
        · exact hc
        · exact ih j2 hrec x hx
      | none =>
        rw [hrec] at h
        by_cases hnl : c == '\n'
        · rw [if_pos hnl] at h
          injection h with h
          subst h
          intro x hx
          simp only [List.take_succ_cons, List.take_zero, List.mem_singleton] at hx
          subst hx
          exact hc
        · rw [if_neg hnl] at h; cases h
    · rw [if_neg hc] at h; cases h

theorem paraSplit_pres : ∀ t : List Char, ((paraSplit t).map filterNW).flatten = filterNW t := by
  intro t
  induction t using paraSplit.induct with
  | case1 =>
    simp [paraSplit, filterNW]
  | case2 c cs hc j hj ih =>
    rw [paraSplit]
    simp only [hc, if_true]
    rw [hj]
    simp only [List.map_cons, List.flatten_cons]
    rw [ih]
    have hcnl : c = '\n' := by simpa using hc
    have h1 : filterNW (c :: cs) = filterNW cs := by
      simp [filterNW, hcnl, pySpace]
    rw [h1]
    conv_rhs => rw [← List.take_append_drop (j + 1) cs]
    rw [filterNW_append, filterNW_all_ws (lastNlInRun_ws cs j hj)]
    simp [filterNW]
  | case3 c cs hc hj ih =>
    rw [paraSplit]
    simp only [hc, if_true]
    rw [hj]
    rw [flatten_consHead, ih]
    rw [show filterNW (c :: cs) = filterNW [c] ++ filterNW cs from filterNW_append [c] cs]
  | case4 c cs hc ih =>
    rw [paraSplit]
    simp only [hc, Bool.false_eq_true, if_false]
    rw [flatten_consHead, ih]
    rw [show filterNW (c :: cs) = filterNW [c] ++ filterNW cs from filterNW_append [c] cs]

/-! ## Chunk-level master lemmas -/

theorem effSent_solid : ∀ ss : List (List Char), ∀ q ∈ effSent ss, solid q = true := by
  intro ss
  induction ss with
  | nil => intro q hq; cases hq
  | cons s rest ih =>
    intro q hq
    rw [effSent] at hq
    by_cases hs : (pyStrip s).isEmpty
    · rw [if_pos hs] at hq
      exact ih q (by simpa using hq)
    · rw [if_neg hs] at hq
      rcases List.mem_append.mp hq with hq | hq
      · rcases List.mem_singleton.mp hq with rfl
        rcases solid_pyStrip s with h | h
        · rw [h] at hs; simp at hs
        · exact h
      · exact ih q hq

theorem effSent_mem : ∀ ss : List (List Char), ∀ q ∈ effSent ss, ∃ s ∈ ss, q = pyStrip s := by
  intro ss
  induction ss with
  | nil => intro q hq; cases hq
  | cons s rest ih =>
    intro q hq
    rw [effSent] at hq
    by_cases hs : (pyStrip s).isEmpty
    · rw [if_pos hs] at hq
      obtain ⟨s2, hs2, hq2⟩ := ih q (by simpa using hq)
      exact ⟨s2, by simp [hs2], hq2⟩
    · rw [if_neg hs] at hq
      rcases List.mem_append.mp hq with hq | hq
      · rcases List.mem_singleton.mp hq with rfl
        exact ⟨s, by simp, rfl⟩
      · obtain ⟨s2, hs2, hq2⟩ := ih q hq
        exact ⟨s2, by simp [hs2], hq2⟩

theorem effSent_filterNW : ∀ ss : List (List Char),
    ((effSent ss).map filterNW).flatten = (ss.map filterNW).flatten := by
  intro ss
  induction ss with
  | nil => rfl
  | cons s rest ih =>
    rw [effSent]
    by_cases hs : (pyStrip s).isEmpty
    · rw [if_pos hs]
      simp only [List.nil_append, List.map_cons, List.flatten_cons]
      rw [ih, filterNW_nil_of_strip_empty hs]
      simp
    · rw [if_neg hs]
      simp only [List.singleton_append, List.map_cons, List.flatten_cons]
      rw [ih, filterNW_pyStrip]

theorem split_sentences_strip {t s : List Char} (h : s ∈ _split_sentences t) :
    pyStrip s = s := by
  unfold _split_sentences at h
  have h2 := List.mem_of_mem_filter h
  obtain ⟨x, _, hx⟩ := List.mem_map.mp h2
  rw [← hx, pyStrip_idem]

theorem chunkParagraph_total {para : List Char} {m : Int} (hm : m ≠ 0) :
    ∃ out, chunkParagraph m para = .ok out := by
  unfold chunkParagraph
  by_cases h1 : (pyStrip para).isEmpty
  · exact ⟨[], by rw [if_pos h1]⟩
  · rw [if_neg h1]
    by_cases h2 : ((pyStrip para).length : Int) ≤ m
    · exact ⟨_, by rw [if_pos h2]⟩
    · rw [if_neg h2, sentLoop_eq_packCore]
      exact packCore_total m _ _ (fun p _ => clauses_total hm) [] 0

theorem chunkParagraph_good {para : List Char} {m : Int} (hm : 0 < m)
    {out : List (List Char)} (hok : chunkParagraph m para = .ok out) : goodOut m out := by
  unfold chunkParagraph at hok
  by_cases h1 : (pyStrip para).isEmpty
  · rw [if_pos h1] at hok
    simp only [Except.ok.injEq] at hok
    subst hok
    intro c hc
    cases hc
  · rw [if_neg h1] at hok
    by_cases h2 : ((pyStrip para).length : Int) ≤ m
    · rw [if_pos h2] at hok
      simp only [Except.ok.injEq] at hok
      subst hok
      intro c hc
      rcases List.mem_singleton.mp hc with rfl
      refine ⟨?_, h2⟩
      rcases solid_pyStrip para with h | h
      · rw [h] at h1; simp at h1
      · exact h
    · rw [if_neg h2, sentLoop_eq_packCore] at hok
      refine packCore_good m _ hm _ (effSent_solid _) ?_ [] 0 out
        (by intro x hx; cases hx) (by simp [joinSpace_nil]) (by omega) hok
      intro p _ _ sub hsub
      exact clauses_good hm hsub

theorem chunkParagraph_pres {para : List Char} {m : Int} (hm : 0 < m)
    (hclean : ∀ s ∈ _split_sentences (pyStrip para), cleanOKB s = true)
    {out : List (List Char)} (hok : chunkParagraph m para = .ok out) :
    (out.map filterNW).flatten = filterNW para := by
  unfold chunkParagraph at hok
  by_cases h1 : (pyStrip para).isEmpty
  · rw [if_pos h1] at hok
    simp only [Except.ok.injEq] at hok
    subst hok
    rw [show ((([] : List (List Char))).map filterNW).flatten = ([] : List Char) from rfl]
    exact (filterNW_nil_of_strip_empty h1).symm
  · rw [if_neg h1] at hok
    by_cases h2 : ((pyStrip para).length : Int) ≤ m
    · rw [if_pos h2] at hok
      simp only [Except.ok.injEq] at hok
      subst hok
      simp only [List.map_cons, List.map_nil, List.flatten_cons, List.flatten_nil,
        List.append_nil]
      exact filterNW_pyStrip para
    · rw [if_neg h2, sentLoop_eq_packCore] at hok
      have h := packCore_pres m _ (effSent (_split_sentences (pyStrip para))) ?_ [] 0 out hok
      · rw [h]
        simp only [List.map_nil, List.flatten_nil, List.nil_append]
        rw [effSent_filterNW, split_sentences_pres, filterNW_pyStrip]
      · intro q hq sub hsub
        obtain ⟨s, hs, hqe⟩ := effSent_mem _ q hq
        have hqs : q = s := by rw [hqe, split_sentences_strip hs]
        subst hqs
        exact clauses_pres hm (hclean q hs) hsub

theorem paraLoop_total {m : Int} (hm : m ≠ 0) :
    ∀ paras : List (List Char), ∃ out, paraLoop m paras = .ok out := by
  intro paras
  induction paras with
  | nil => exact ⟨[], rfl⟩
  | cons para rest ih =>
    rw [paraLoop]
    obtain ⟨cs, hcs⟩ := @chunkParagraph_total para m hm
    rw [hcs]
    obtain ⟨more, hmore⟩ := ih
    rw [hmore]
    exact ⟨_, rfl⟩

theorem paraLoop_good {m : Int} (hm : 0 < m) :
    ∀ paras : List (List Char), ∀ out, paraLoop m paras = .ok out → goodOut m out := by
  intro paras
  induction paras with
  | nil =>
    intro out hok
    simp only [paraLoop, Except.ok.injEq] at hok
    subst hok
    intro c hc
    cases hc
  | cons para rest ih =>
    intro out hok
    rw [paraLoop] at hok
    cases hcs : chunkParagraph m para with
    | error e => rw [hcs] at hok; cases hok
    | ok cs =>
      rw [hcs] at hok
      cases hmore : paraLoop m rest with
      | error e => rw [hmore] at hok; cases hok
      | ok more =>
        rw [hmore] at hok
        simp only [Except.ok.injEq] at hok
        subst hok
        exact goodOut_append (chunkParagraph_good hm hcs) (ih more hmore)

theorem paraLoop_pres {m : Int} (hm : 0 < m) :
    ∀ paras : List (List Char),
      (∀ para ∈ paras, ∀ s ∈ _split_sentences (pyStrip para), cleanOKB s = true) →
      ∀ out, paraLoop m paras = .ok out →
        (out.map filterNW).flatten = (paras.map filterNW).flatten := by
  intro paras
  induction paras with
  | nil =>
    intro _ out hok
    simp only [paraLoop, Except.ok.injEq] at hok
    subst hok
    rfl
  | cons para rest ih =>
    intro hclean out hok
    rw [paraLoop] at hok
    cases hcs : chunkParagraph m para with
    | error e => rw [hcs] at hok; cases hok
    | ok cs =>
      rw [hcs] at hok
      cases hmore : paraLoop m rest with
      | error e => rw [hmore] at hok; cases hok
      | ok more =>
        rw [hmore] at hok
        simp only [Except.ok.injEq] at hok
        subst hok
        simp only [List.map_append, List.flatten_append, List.map_cons, List.flatten_cons]
        rw [chunkParagraph_pres hm (hclean para (by simp)) hcs,
          ih (fun p hp => hclean p (by simp [hp])) more hmore]

theorem chunk_total {body : List Char} {m : Int} (hm : m ≠ 0) :
    ∃ out, chunk_content body m = .ok out := by
  unfold chunk_content
  by_cases h : (pyStrip body).isEmpty
  · exact ⟨[], by rw [if_pos h]⟩
  · rw [if_neg h]
    exact paraLoop_total hm _

theorem chunk_good {body : List Char} {m : Int} (hm : 0 < m) {out : List (List Char)}
    (hok : chunk_content body m = .ok out) : goodOut m out := by
  unfold chunk_content at hok
  by_cases h : (pyStrip body).isEmpty
  · rw [if_pos h] at hok
    simp only [Except.ok.injEq] at hok
    subst hok
    intro c hc
    cases hc
  · rw [if_neg h] at hok
    exact paraLoop_good hm _ out hok

theorem chunk_pres {body : List Char} {m : Int} (hm : 0 < m)
    (hclean : bodyCleanB body = true) {out : List (List Char)}
    (hok : chunk_content body m = .ok out) :
    (out.map filterNW).flatten = filterNW body := by
  unfold chunk_content at hok
  by_cases h : (pyStrip body).isEmpty
  · rw [if_pos h] at hok
    simp only [Except.ok.injEq] at hok
    subst hok
    exact (filterNW_nil_of_strip_empty h).symm
  · rw [if_neg h] at hok
    have hc : ∀ para ∈ paraSplit body, ∀ s ∈ _split_sentences (pyStrip para),
        cleanOKB s = true := by
      unfold bodyCleanB at hclean
      simp only [List.all_eq_true] at hclean
      exact fun para hpara s hs => hclean para hpara s hs
    rw [paraLoop_pres hm _ hc out hok, ← paraSplit_pres]

/-! ## Helper lemmas for the claims -/

theorem pyStrip_length_le (xs : List Char) : (pyStrip xs).length ≤ xs.length := by
  unfold pyStrip
  have h1 := (List.dropWhile_sublist (l := xs) pySpace).length_le
  have h2 := (List.dropWhile_sublist (l := (xs.dropWhile pySpace).reverse) pySpace).length_le
  simp only [List.length_reverse] at h2 ⊢
  omega

theorem takeWhile_all {p : Char → Bool} :
    ∀ {l : List Char}, (∀ x ∈ l, p x = true) → l.takeWhile p = l := by
  intro l
  induction l with
  | nil => intro _; rfl
  | cons c cs ih =>
    intro h
    rw [List.takeWhile_cons, if_pos (h c (by simp))]
    rw [ih (fun x hx => h x (by simp [hx]))]

theorem dropWhile_all {p : Char → Bool} :
    ∀ {l : List Char}, (∀ x ∈ l, p x = true) → l.dropWhile p = [] := by
  intro l
  induction l with
  | nil => intro _; rfl
  | cons c cs ih =>
    intro h
    rw [List.dropWhile_cons, if_pos (h c (by simp))]
    exact ih (fun x hx => h x (by simp [hx]))

theorem pySplitWs_single {w : List Char} (hw : wordlike w) : pySplitWs w = [w] := by
  obtain ⟨hne, hall⟩ := hw
  cases w with
  | nil => exact absurd rfl hne
  | cons c cs =>
    rw [pySplitWs, if_neg (by simp [hall c (by simp)])]
    rw [takeWhile_all (fun x hx => by simp [hall x (by simp [hx])])]
    rw [dropWhile_all (fun x hx => by simp [hall x (by simp [hx])])]
    rw [pySplitWs]

theorem words_single_oversize {w : List Char} {m : Int} (hm : 0 < m)
    (hw : wordlike w) (hlen : m < (w.length : Int)) :
    _split_at_words w m = .ok (slicesOf w m.toNat) := by
  unfold _split_at_words
  rw [pySplitWs_single hw, wordLoop, if_pos (by omega), hardCut_pos hm]
  rw [show wordLoop m [] [] 0 = .ok [] from rfl]
  simp

theorem sentSplitCore_plain :
    ∀ (t : List Char), (∀ c ∈ t, pySpace c = false) → (∀ c ∈ t, pyTerm c = false) →
      ∀ prev, isTermO prev = false → sentSplitCore prev t = [t] := by
  intro t
  induction t with
  | nil => intro _ _ prev hprev; rw [sentSplitCore, if_neg (by simp [hprev])]
  | cons c cs ih =>
    intro hws hterm prev hprev
    rw [sentSplitCore, if_neg (by simp [hprev])]
    rw [ih (fun x hx => hws x (by simp [hx])) (fun x hx => hterm x (by simp [hx]))
      (some c) (by simp [isTermO, hterm c (by simp)])]
    rfl

theorem paraSplit_no_nl :
    ∀ (t : List Char), (∀ c ∈ t, (c == '\n') = false) → paraSplit t = [t] := by
  intro t
  induction t with
  | nil => intro _; rw [paraSplit]
  | cons c cs ih =>
    intro h
    rw [paraSplit, if_neg (by simp [h c (by simp)])]
    rw [ih (fun x hx => h x (by simp [hx]))]
    rfl

theorem replicate_x_wordlike : wordlike (List.replicate 150 'x') := by
  refine ⟨by simp, ?_⟩
  intro c hc
  rw [List.eq_of_mem_replicate hc]
  rfl

theorem scenarioD : chunk_content (List.replicate 150 'x') 100 =
    .ok [List.replicate 100 'x', List.replicate 50 'x'] := by
  have hwl := replicate_x_wordlike
  have hstrip : pyStrip (List.replicate 150 'x') = List.replicate 150 'x' :=
    pyStrip_of_solid (wordlike_solid hwl)
  have hpara : paraSplit (List.replicate 150 'x') = [List.replicate 150 'x'] :=
    paraSplit_no_nl _ (by intro c hc; rw [List.eq_of_mem_replicate hc]; rfl)
  have hsent : sentSplitCore none (List.replicate 150 'x') = [List.replicate 150 'x'] :=
    sentSplitCore_plain _ (fun c hc => by rw [List.eq_of_mem_replicate hc]; rfl)
      (fun c hc => by rw [List.eq_of_mem_replicate hc]; rfl) none rfl
  have hss : _split_sentences (List.replicate 150 'x') = [List.replicate 150 'x'] := by
    unfold _split_sentences
    rw [hsent, List.map_cons, List.map_nil, hstrip, List.filter_cons]
    rw [if_pos (by simp [List.isEmpty_iff]), List.filter_nil]
  have hcd : chooseDelim (List.replicate 150 'x') = none := by
    unfold chooseDelim
    rw [if_neg (by simp [List.mem_replicate]), if_neg (by simp [List.mem_replicate]),
      if_neg (by simp [List.mem_replicate])]
  have hclauses : _split_at_clauses (List.replicate 150 'x') 100 =
      .ok (slicesOf (List.replicate 150 'x') 100) := by
    unfold _split_at_clauses
    rw [hcd]
    have h := words_single_oversize (m := 100) (by norm_num) hwl (by simp)
    simpa using h
  have hsl : slicesOf (List.replicate 150 'x') 100 =
      [List.replicate 100 'x', List.replicate 50 'x'] := by
    simp [slicesOf, List.replicate]
  have hcp : chunkParagraph 100 (List.replicate 150 'x') =
      .ok [List.replicate 100 'x', List.replicate 50 'x'] := by
    unfold chunkParagraph
    rw [hstrip]
    rw [if_neg (by simp), if_neg (by simp)]
    rw [hss, sentLoop, hstrip]
    rw [if_neg (by simp), if_pos (by simp)]
    rw [hclauses, hsl]
    rw [show sentLoop 100 [] [] 0 = .ok [] from rfl]
    simp
  unfold chunk_content
  rw [hstrip]
  rw [if_neg (by simp)]
  rw [hpara, paraLoop, hcp]
  rw [show paraLoop 100 [] = .ok [] from rfl]
  simp

/-! ## Claim theorems -/

/-- C1: for every input text body and every limit > 0, every chunk in the
list returned by `chunk_content body limit` has length at most `limit`
characters. -/
theorem chunk_length_le_limit (body : List Char) (m : Int) (hm : 0 < m)
    (out : List (List Char)) (hok : chunk_content body m = Except.ok out) :
    ∀ c ∈ out, (c.length : Int) ≤ m :=
  fun c hc => (chunk_good hm hok c hc).2

theorem chunk_length_le_limit_witness :
    ((['a', 'b'] : List Char).length : Int) ≤ 5 :=
  chunk_length_le_limit ['a', 'b'] 5 (by decide) [['a', 'b']]
    (by simp [chunk_content, paraLoop, chunkParagraph, paraSplit, lastNlInRun, consHead,
      _split_sentences, sentSplitCore, isTermO, pyTerm, pySpace, pyUpper, pyStrip,
      sentLoop, _split_at_clauses, chooseDelim, clauseLoop, pySplitOn, _split_at_words,
      wordLoop, pySplitWs, hardCut, slicesOf, joinSpace, List.intersperse])
    ['a', 'b'] (by decide)

/-- C6: for every input text body and every limit > 0, no chunk returned by
`chunk_content body limit` is the empty string or consists only of
whitespace. -/
theorem chunk_no_blank_chunks (body : List Char) (m : Int) (hm : 0 < m)
    (out : List (List Char)) (hok : chunk_content body m = Except.ok out) :
    ∀ c ∈ out, c ≠ [] ∧ pyStrip c ≠ [] := by
  intro c hc
  have h := (chunk_good hm hok c hc).1
  refine ⟨solid_ne_nil h, ?_⟩
  rw [pyStrip_of_solid h]
  exact solid_ne_nil h

theorem chunk_no_blank_chunks_witness :
    (['a', 'b'] : List Char) ≠ [] ∧ pyStrip ['a', 'b'] ≠ [] :=
  chunk_no_blank_chunks ['a', 'b'] 5 (by decide) [['a', 'b']]
    (by simp [chunk_content, paraLoop, chunkParagraph, paraSplit, lastNlInRun, consHead,
      _split_sentences, sentSplitCore, isTermO, pyTerm, pySpace, pyUpper, pyStrip,
      sentLoop, _split_at_clauses, chooseDelim, clauseLoop, pySplitOn, _split_at_words,
      wordLoop, pySplitWs, hardCut, slicesOf, joinSpace, List.intersperse])
    ['a', 'b'] (by decide)

/-- C10 (implicit): for every input text body and every limit > 0, every
chunk returned by `chunk_content body limit` is a fixed point of whitespace
trimming: `trim(chunk) = chunk`. -/
theorem chunk_trim_fixed_point (body : List Char) (m : Int) (hm : 0 < m)
    (out : List (List Char)) (hok : chunk_content body m = Except.ok out) :
    ∀ c ∈ out, pyStrip c = c :=
  fun c hc => pyStrip_of_solid (chunk_good hm hok c hc).1

theorem chunk_trim_fixed_point_witness :
    pyStrip ['a', 'b'] = ['a', 'b'] :=
  chunk_trim_fixed_point ['a', 'b'] 5 (by decide) [['a', 'b']]
    (by simp [chunk_content, paraLoop, chunkParagraph, paraSplit, lastNlInRun, consHead,
      _split_sentences, sentSplitCore, isTermO, pyTerm, pySpace, pyUpper, pyStrip,
      sentLoop, _split_at_clauses, chooseDelim, clauseLoop, pySplitOn, _split_at_words,
      wordLoop, pySplitWs, hardCut, slicesOf, joinSpace, List.intersperse])
    ['a', 'b'] (by decide)

/-- C3, counterexample: at limit 0 with body `"a"`, `chunk_content` raises
`ValueError` (from `range(0, len(word), 0)`) instead of returning a chunk
list. -/
theorem chunk_zero_limit_raises : chunk_content ['a'] 0 = Except.error () := by
  simp [chunk_content, paraLoop, chunkParagraph, paraSplit, lastNlInRun, consHead,
    _split_sentences, sentSplitCore, isTermO, pyTerm, pySpace, pyUpper, pyStrip,
    sentLoop, _split_at_clauses, chooseDelim, clauseLoop, pySplitOn, _split_at_words,
    wordLoop, pySplitWs, hardCut, slicesOf, joinSpace, List.intersperse]

/-- C3, amended: for every input text body and every limit other than zero
(in particular any negative limit), `chunk_content` terminates and returns a
chunk list without raising; at limit exactly zero it can raise `ValueError`. -/
theorem chunk_total_nonzero (body : List Char) (m : Int) (hm : m ≠ 0) :
    ∃ out, chunk_content body m = Except.ok out :=
  chunk_total hm

theorem chunk_total_nonzero_witness :
    ∃ out, chunk_content ['a'] (-3) = Except.ok out :=
  chunk_total_nonzero ['a'] (-3) (by decide)

/-- C4, counterexample: the body `"a\n\nb"` has length 4 ≤ 10 but
`chunk_content` returns two chunks, not the single trimmed body. -/
theorem chunk_small_body_cex :
    (0 : Int) < 10 ∧ ((['a', '\n', '\n', 'b'] : List Char).length : Int) ≤ 10 ∧
    chunk_content ['a', '\n', '\n', 'b'] 10 ≠
      Except.ok [pyStrip ['a', '\n', '\n', 'b']] := by
  refine ⟨by decide, by decide, ?_⟩
  rw [show chunk_content ['a', '\n', '\n', 'b'] 10 = Except.ok [['a'], ['b']] from by
    simp [chunk_content, paraLoop, chunkParagraph, paraSplit, lastNlInRun, consHead,
      _split_sentences, sentSplitCore, isTermO, pyTerm, pySpace, pyUpper, pyStrip,
      sentLoop, _split_at_clauses, chooseDelim, clauseLoop, pySplitOn, _split_at_words,
      wordLoop, pySplitWs, hardCut, slicesOf, joinSpace, List.intersperse]]
  intro h
  rw [Except.ok.injEq] at h
  simpa using congrArg List.length h

/-- C4, amended: for every body that is not all-whitespace, contains no
blank-line paragraph separator (the paragraph split leaves it whole), and
has length at most the limit (limit > 0), `chunk_content` returns exactly
the one-element list containing the whitespace-trimmed body. -/
theorem chunk_small_body (body : List Char) (m : Int) (hm : 0 < m)
    (hne : (pyStrip body).isEmpty = false) (hpara : paraSplit body = [body])
    (hlen : (body.length : Int) ≤ m) :
    chunk_content body m = Except.ok [pyStrip body] := by
  unfold chunk_content
  rw [if_neg (by simp [hne])]
  rw [hpara, paraLoop]
  have hcp : chunkParagraph m body = Except.ok [pyStrip body] := by
    unfold chunkParagraph
    rw [if_neg (by simp [hne]), if_pos ?_]
    have h := pyStrip_length_le body
    push_cast
    omega
  rw [hcp, show paraLoop m [] = Except.ok [] from rfl]
  simp

theorem chunk_small_body_witness :
    chunk_content ['a', 'b'] 5 = Except.ok [pyStrip ['a', 'b']] :=
  chunk_small_body ['a', 'b'] 5 (by decide) (by decide)
    (by simp [paraSplit, lastNlInRun, consHead, pySpace]) (by decide)

/-- C2, counterexample: for body `"aa;;bb"` at limit 3, clause splitting
drops the second semicolon (its split part is empty), so the space-joined
chunk concatenation loses a non-whitespace character of the body. -/
theorem chunk_preserve_cex :
    (0 : Int) < 3 ∧
    chunk_content ['a', 'a', ';', ';', 'b', 'b'] 3 =
      Except.ok [['a', 'a', ';'], ['b', 'b']] ∧
    filterNW (joinSpace [['a', 'a', ';'], ['b', 'b']]) ≠
      filterNW ['a', 'a', ';', ';', 'b', 'b'] := by
  refine ⟨by decide, ?_, by decide⟩
  simp [chunk_content, paraLoop, chunkParagraph, paraSplit, lastNlInRun, consHead,
    _split_sentences, sentSplitCore, isTermO, pyTerm, pySpace, pyUpper, pyStrip,
    sentLoop, _split_at_clauses, chooseDelim, clauseLoop, pySplitOn, _split_at_words,
    wordLoop, pySplitWs, hardCut, slicesOf, joinSpace, List.intersperse]

/-- C2, amended: for every limit > 0 and every body that is clean for clause
splitting (no sentence's chosen clause delimiter produces a whitespace-only
split part before the last part), the concatenation of the returned chunks
joined by single spaces contains every non-whitespace character of the body,
in original order, exactly once.  Without the cleanliness proviso, delimiter
occurrences adjacent to empty split parts are dropped. -/
theorem chunk_preserves_content (body : List Char) (m : Int) (hm : 0 < m)
    (hclean : bodyCleanB body = true) (out : List (List Char))
    (hok : chunk_content body m = Except.ok out) :
    filterNW (joinSpace out) = filterNW body := by
  rw [filterNW_joinSpace]
  exact chunk_pres hm hclean hok

theorem chunk_preserves_content_witness :
    filterNW (joinSpace [['a', 'b'], ['c', 'd']]) = filterNW ['a', 'b', ' ', 'c', 'd'] :=
  chunk_preserves_content ['a', 'b', ' ', 'c', 'd'] 2 (by decide)
    (by simp [bodyCleanB, cleanOKB, paraSplit, lastNlInRun, consHead, _split_sentences,
      sentSplitCore, isTermO, pyTerm, pySpace, pyUpper, pyStrip, chooseDelim, pySplitOn])
    [['a', 'b'], ['c', 'd']]
    (by simp [chunk_content, paraLoop, chunkParagraph, paraSplit, lastNlInRun, consHead,
      _split_sentences, sentSplitCore, isTermO, pyTerm, pySpace, pyUpper, pyStrip,
      sentLoop, _split_at_clauses, chooseDelim, clauseLoop, pySplitOn, _split_at_words,
      wordLoop, pySplitWs, hardCut, slicesOf, joinSpace, List.intersperse])

/-- C9: in word splitting with limit > 0, a single word longer than the
limit is hard-cut into consecutive slices of exactly `limit` characters
(joining back to the word, only the final slice possibly shorter); in
particular chunking a single word of length 150 at limit 100 yields exactly
the two chunks of 100 and 50 characters. -/
theorem word_hard_cut (w : List Char) (m : Int) (hm : 0 < m) (hwne : w ≠ [])
    (hnsp : ∀ c ∈ w, pySpace c = false) (hlen : m < (w.length : Int)) :
    (_split_at_words w m = Except.ok (slicesOf w m.toNat) ∧
      (∀ s ∈ (slicesOf w m.toNat).dropLast, s.length = m.toNat) ∧
      (∀ s ∈ slicesOf w m.toNat, s ≠ [] ∧ (s.length : Int) ≤ m) ∧
      (slicesOf w m.toNat).flatten = w) ∧
    chunk_content (List.replicate 150 'x') 100 =
      Except.ok [List.replicate 100 'x', List.replicate 50 'x'] := by
  have hk : 0 < m.toNat := by omega
  refine ⟨⟨words_single_oversize hm ⟨hwne, hnsp⟩ hlen, slicesOf_dropLast_length hk, ?_,
    slicesOf_flatten hk⟩, scenarioD⟩
  intro s hs
  obtain ⟨h1, h2, _⟩ := slicesOf_mem hk s hs
  exact ⟨h1, by omega⟩

theorem word_hard_cut_witness :
    _split_at_words ['a', 'b', 'c'] 2 = Except.ok [['a', 'b'], ['c']] := by
  have h := word_hard_cut ['a', 'b', 'c'] 2 (by decide) (by decide) (by decide) (by decide)
  rw [h.1.1]
  simp [slicesOf]

theorem effList_eq_spec (d : Char) :
    ∀ parts : List (List Char), effList d parts = effListSpec d parts := by
  intro parts
  induction parts with
  | nil => rfl
  | cons p rest ih =>
    cases rest with
    | nil =>
      rw [effList]
      unfold effListSpec
      simp only [List.dropLast_single, List.map_nil, List.filter_nil, List.getLast?_singleton,
        List.isEmpty_nil, if_true, List.nil_append, effList, List.append_nil]
    | cons q qs =>
      rw [effList]
      unfold effListSpec
      rw [List.dropLast_cons_of_ne_nil (by simp)]
      simp only [List.map_cons, List.filter_cons, List.getLast?_cons_cons, List.isEmpty_cons,
        Bool.false_eq_true, if_false]
      by_cases hs : (pyStrip p).isEmpty
      · rw [if_pos hs]
        simp only [hs, Bool.not_true, Bool.false_eq_true, if_false, List.nil_append]
        rw [ih]
        unfold effListSpec
        rfl
      · rw [if_neg hs]
        simp only [hs, Bool.not_false, if_true, List.map_cons, List.cons_append,
          List.singleton_append]
        rw [ih]
        unfold effListSpec
        rfl

/-- C5: for every over-long text handed to the clause splitter, the
delimiter class used to split is the first of semicolon, colon, comma that
occurs anywhere in the text, regardless of the sizes of the resulting
pieces; the pieces packed are the split parts with the chosen delimiter
re-appended to every part except the last (stripped, empty parts dropped);
and if none of the three delimiters occurs anywhere, the splitter falls
through to word splitting. -/
theorem clause_split_behavior (text : List Char) (m : Int) :
    (text.contains ';' = true →
      _split_at_clauses text m =
        packCore m (fun q => _split_at_words q m) (effListSpec ';' (pySplitOn ';' text)) [] 0) ∧
    (text.contains ';' = false → text.contains ':' = true →
      _split_at_clauses text m =
        packCore m (fun q => _split_at_words q m) (effListSpec ':' (pySplitOn ':' text)) [] 0) ∧
    (text.contains ';' = false → text.contains ':' = false → text.contains ',' = true →
      _split_at_clauses text m =
        packCore m (fun q => _split_at_words q m) (effListSpec ',' (pySplitOn ',' text)) [] 0) ∧
    (text.contains ';' = false → text.contains ':' = false → text.contains ',' = false →
      _split_at_clauses text m = _split_at_words text m) := by
  refine ⟨?_, ?_, ?_, ?_⟩
  · intro h1
    unfold _split_at_clauses chooseDelim
    rw [if_pos h1]
    dsimp only
    rw [clauseLoop_eq_packCore, effList_eq_spec]
  · intro h1 h2
    unfold _split_at_clauses chooseDelim
    rw [if_neg (by simp only [h1]; decide), if_pos h2]
    dsimp only
    rw [clauseLoop_eq_packCore, effList_eq_spec]
  · intro h1 h2 h3
    unfold _split_at_clauses chooseDelim
    rw [if_neg (by simp only [h1]; decide), if_neg (by simp only [h2]; decide), if_pos h3]
    dsimp only
    rw [clauseLoop_eq_packCore, effList_eq_spec]
  · intro h1 h2 h3
    unfold _split_at_clauses chooseDelim
    rw [if_neg (by simp only [h1]; decide), if_neg (by simp only [h2]; decide),
      if_neg (by simp only [h3]; decide)]

theorem clause_split_behavior_witness :
    (_split_at_clauses ['a', ';', 'b'] 2 =
      packCore 2 (fun q => _split_at_words q 2)
        (effListSpec ';' (pySplitOn ';' ['a', ';', 'b'])) [] 0) ∧
    (_split_at_clauses ['a', ':', 'b'] 2 =
      packCore 2 (fun q => _split_at_words q 2)
        (effListSpec ':' (pySplitOn ':' ['a', ':', 'b'])) [] 0) ∧
    (_split_at_clauses ['a', ',', 'b'] 2 =
      packCore 2 (fun q => _split_at_words q 2)
        (effListSpec ',' (pySplitOn ',' ['a', ',', 'b'])) [] 0) ∧
    (_split_at_clauses ['a', 'b'] 2 = _split_at_words ['a', 'b'] 2) :=
  ⟨(clause_split_behavior ['a', ';', 'b'] 2).1 (by decide),
   (clause_split_behavior ['a', ':', 'b'] 2).2.1 (by decide) (by decide),
   (clause_split_behavior ['a', ',', 'b'] 2).2.2.1 (by decide) (by decide) (by decide),
   (clause_split_behavior ['a', 'b'] 2).2.2.2 (by decide) (by decide) (by decide)⟩

/-! ## Title resolution: leftmost-match characterization of the heading search -/

theorem headingAt_nil (flag : Bool) (p : Nat) : ¬ headingAt flag [] p := by
  intro h
  obtain ⟨_, h2, _⟩ := h
  simp [charAt] at h2

theorem headingAt_zero (flag : Bool) (c : Char) (cs : List Char) :
    headingAt flag (c :: cs) 0 ↔
      (flag = true ∧ c = '#' ∧ (matchAfterHash cs).isSome) := by
  unfold headingAt lineStartAt charAt
  simp

theorem headingAt_cons (flag : Bool) (c : Char) (cs : List Char) (p : Nat) :
    headingAt flag (c :: cs) (p + 1) ↔ headingAt (c == '\n') cs p := by
  unfold headingAt lineStartAt charAt
  cases p with
  | zero => simp
  | succ p => simp [List.drop_succ_cons]

theorem h1Search_characterization :
    ∀ (t : List Char) (flag : Bool),
      (h1Search flag t = none → ∀ p, ¬ headingAt flag t p) ∧
      (∀ g, h1Search flag t = some g →
        ∃ p, headingAt flag t p ∧ (∀ q, q < p → ¬ headingAt flag t q) ∧
          matchAfterHash (t.drop (p + 1)) = some g) := by
  intro t
  induction t with
  | nil =>
    intro flag
    exact ⟨fun _ p => headingAt_nil flag p, fun g hg => by cases hg⟩
  | cons c cs ih =>
    intro flag
    constructor
    · intro hnone p
      rw [h1Search] at hnone
      by_cases hcons : flag && c == '#'
      · rw [if_pos hcons] at hnone
        cases hm : matchAfterHash cs with
        | some g => rw [hm] at hnone; cases hnone
        | none =>
          rw [hm] at hnone
          cases p with
          | zero =>
            rw [headingAt_zero]
            rintro ⟨_, _, h3⟩
            rw [hm] at h3
            cases h3
          | succ p =>
            rw [headingAt_cons]
            exact (ih (c == '\n')).1 hnone p
      · rw [if_neg hcons] at hnone
        cases p with
        | zero =>
          rw [headingAt_zero]
          rintro ⟨h1, h2, _⟩
          exact hcons (by simp [h1, h2])
        | succ p =>
          rw [headingAt_cons]
          exact (ih (c == '\n')).1 hnone p
    · intro g hsome
      rw [h1Search] at hsome
      by_cases hcons : flag && c == '#'
      · rw [if_pos hcons] at hsome
        cases hm : matchAfterHash cs with
        | some g2 =>
          rw [hm] at hsome
          injection hsome with hsome
          subst hsome
          refine ⟨0, ?_, ?_, ?_⟩
          · rw [headingAt_zero]
            simp only [Bool.and_eq_true, beq_iff_eq] at hcons
            exact ⟨hcons.1, hcons.2, by rw [hm]; rfl⟩
          · intro q hq; omega
          · simpa using hm
        | none =>
          rw [hm] at hsome
          obtain ⟨p, hp1, hp2, hp3⟩ := (ih (c == '\n')).2 g hsome
          refine ⟨p + 1, ?_, ?_, ?_⟩
          · rw [headingAt_cons]; exact hp1
          · intro q hq
            cases q with
            | zero =>
              rw [headingAt_zero]
              rintro ⟨_, _, h3⟩
              rw [hm] at h3
              cases h3
            | succ q =>
              rw [headingAt_cons]
              exact hp2 q (by omega)
          · simpa [List.drop_succ_cons] using hp3
      · rw [if_neg hcons] at hsome
        obtain ⟨p, hp1, hp2, hp3⟩ := (ih (c == '\n')).2 g hsome
        refine ⟨p + 1, ?_, ?_, ?_⟩
        · rw [headingAt_cons]; exact hp1
        · intro q hq
          cases q with
          | zero =>
            rw [headingAt_zero]
            rintro ⟨h1, h2, _⟩
            exact hcons (by simp [h1, h2])
          | succ q =>
            rw [headingAt_cons]
            exact hp2 q (by omega)
        · simpa [List.drop_succ_cons] using hp3

/-- C7, counterexample: body `"#\nHello"` contains no line matching a
top-level heading (even under a generous reading of "a single '#' followed
by whitespace"), and the metadata has no title key, so by the claim the
resolved title should be the filename stem `"file"`; the code instead
returns `"Hello"`, because the `\s+` of `re.search(r"^#\s+(.+)$", ..., re.M)`
matches across the line break. -/
theorem extract_title_heading_cex :
    (∀ l ∈ pyLines ['#', '\n', 'H', 'e', 'l', 'l', 'o'], isH1LineB l = false) ∧
    lookupKey [] titleKey = none ∧
    _extract_title [] ['#', '\n', 'H', 'e', 'l', 'l', 'o'] ['f', 'i', 'l', 'e', '.', 'm', 'd'] =
      ['H', 'e', 'l', 'l', 'o'] ∧
    ['H', 'e', 'l', 'l', 'o'] ≠
      pyStem ['f', 'i', 'l', 'e', '.', 'm', 'd'] := by
  refine ⟨by decide, rfl, by decide, by decide⟩

/-- C7, amended: title resolution follows the priority order: a `title`
metadata key wins and its value is returned coerced to string; otherwise,
if the multiline regex `^#\s+(.+)$` matches the body — at the leftmost
line-start position holding `#` followed by at least one whitespace
character (which may span line breaks) and then captured text up to the end
of that line — the trimmed capture of that first match is returned;
otherwise the filename with its extension removed is returned. -/
theorem extract_title_resolution (fm : List (List Char × PyValue))
    (content fname : List Char) :
    (∀ v, lookupKey fm titleKey = some v → _extract_title fm content fname = pyStr v) ∧
    (lookupKey fm titleKey = none →
      ∀ g, h1Search true content = some g →
        _extract_title fm content fname = pyStrip g ∧
        ∃ p, headingAt true content p ∧ (∀ q, q < p → ¬ headingAt true content q) ∧
          matchAfterHash (content.drop (p + 1)) = some g) ∧
    (lookupKey fm titleKey = none → h1Search true content = none →
      _extract_title fm content fname = pyStem fname ∧
        ∀ p, ¬ headingAt true content p) := by
  refine ⟨?_, ?_, ?_⟩
  · intro v hv
    unfold _extract_title
    rw [hv]
  · intro hnone g hg
    constructor
    · unfold _extract_title
      rw [hnone, hg]
    · exact (h1Search_characterization content true).2 g hg
  · intro hnone hsearch
    constructor
    · unfold _extract_title
      rw [hnone, hsearch]
    · exact (h1Search_characterization content true).1 hsearch

theorem extract_title_resolution_witness :
    (_extract_title [(titleKey, PyValue.VStr ['T'])] [] [] = pyStr (PyValue.VStr ['T'])) ∧
    (_extract_title [] ['x'] ['f', '.', 'm', 'd'] = pyStem ['f', '.', 'm', 'd']) :=
  ⟨(extract_title_resolution [(titleKey, PyValue.VStr ['T'])] [] []).1
      (PyValue.VStr ['T']) (by decide),
   ((extract_title_resolution [] ['x'] ['f', '.', 'm', 'd']).2.2
      (by decide) (by decide)).1⟩

/-- C8, counterexample: with metadata `{"title": ""}` the resolved title is
the empty string, even though the body carries a real heading and the
filename has a non-empty stem — the resolution does not guarantee a
non-empty title for degenerate sources. -/
theorem extract_title_empty_cex :
    _extract_title [(titleKey, PyValue.VStr [])] ['#', ' ', 'R', 'e', 'a', 'l']
      ['f', '.', 'm', 'd'] = [] := by
  decide

/-- C8, amended: the resolved title is non-empty (indeed non-blank)
whenever the source that wins the priority order is itself non-blank: a
`title` value whose string coercion does not strip to empty, a heading
match whose trimmed capture is non-empty, or a filename with a non-blank
stem.  A degenerate winning source (e.g. `title: ""`) yields its degenerate
value. -/
theorem extract_title_nonblank (fm : List (List Char × PyValue))
    (content fname : List Char) :
    (∀ v, lookupKey fm titleKey = some v → pyStrip (pyStr v) ≠ [] →
      pyStrip (_extract_title fm content fname) ≠ []) ∧
    (lookupKey fm titleKey = none →
      ∀ g, h1Search true content = some g → pyStrip g ≠ [] →
        pyStrip (_extract_title fm content fname) ≠ []) ∧
    (lookupKey fm titleKey = none → h1Search true content = none →
      pyStrip (pyStem fname) ≠ [] →
      pyStrip (_extract_title fm content fname) ≠ []) := by
  refine ⟨?_, ?_, ?_⟩
  · intro v hv hne
    unfold _extract_title
    rw [hv]
    exact hne
  · intro hnone g hg hne
    unfold _extract_title
    rw [hnone, hg, pyStrip_idem]
    exact hne
  · intro hnone hsearch hne
    unfold _extract_title
    rw [hnone, hsearch]
    exact hne

theorem extract_title_nonblank_witness :
    pyStrip (_extract_title [(titleKey, PyValue.VStr ['T'])] [] []) ≠ [] :=
  (extract_title_nonblank [(titleKey, PyValue.VStr ['T'])] [] []).1
    (PyValue.VStr ['T']) (by decide) (by decide)
